import Mathlib

/-!
# The LevelDB access layer of `lib/leveldb.cc`

A shallow embedding of the native extension: the database handle (`NativeDB`), its command
queue and worker loop, the iterator handle (`NativeIterator`) with its range scan, and the two
finalizers.  Heap objects reached through pointers are held in a `World`: the single database
handle, the iterator handles (a pointer to an iterator is its index in `World.heap`), and a
trace of the calls made on external objects (the storage engine, the host runtime's ports and
the deallocator).

The storage engine itself is an external collaborator.  It is modelled by its documented
contract: an ordered map from keys to values (`Store`, ascending in `Slice.compare`), and a
cursor over a snapshot of that map (`Cursor`).
-/

namespace DartLevelDB

/-! ## Bytes and the engine -/

/-- Byte strings; a byte is a natural number (below 256 for data coming from a `Uint8List`). -/
abbrev Bytes := List Nat

/-- One stored key/value pair. -/
abbrev Entry := Bytes × Bytes

/-- Content of the storage engine: entries in ascending key order. -/
abbrev Store := List Entry

/-- The method `leveldb::Slice::compare`: `memcmp` over the common length (bytes compared as
unsigned values), and when that is equal the shorter slice comes first.  The result is
negative, zero or positive. -/
def Slice.compare : Bytes → Bytes → Int
  | [], [] => 0
  | [], _ :: _ => -1
  | _ :: _, [] => 1
  | a :: as, b :: bs => if a < b then -1 else if b < a then 1 else Slice.compare as bs

/-- The slice `leveldb::Slice(data, n)`: the first `n` bytes behind the pointer `data`. -/
def mkSlice (data : Option Bytes) (n : Int) : Bytes :=
  (data.getD []).take n.toNat

/-- Result categories of `leveldb::Status`. -/
inductive Status where
  | ok
  | NotFound
  | Corruption
  | IOError
  | InvalidArgument
  deriving DecidableEq, Repr

/-- The predicate `status.ok()`. -/
def Status.isOk : Status → Bool
  | .ok => true
  | _ => false

/-- The predicate `status.IsNotFound()`. -/
def Status.IsNotFound : Status → Bool
  | .NotFound => true
  | _ => false

/-- The predicate `status.IsIOError()`. -/
def Status.IsIOError : Status → Bool
  | .IOError => true
  | _ => false

/-- The predicate `status.IsCorruption()`. -/
def Status.IsCorruption : Status → Bool
  | .Corruption => true
  | _ => false

/-- Engine contract of `DB::Get`: the value stored under the key, or `NotFound`. -/
def DB.Get (s : Store) (key : Bytes) : Status × Bytes :=
  match s.find? (fun e => Slice.compare e.1 key == 0) with
  | some e => (.ok, e.2)
  | none => (.NotFound, [])

/-- Insertion into the ordered entry list, replacing an entry with the same key. -/
def Store.insert : Store → Bytes → Bytes → Store
  | [], k, v => [(k, v)]
  | e :: es, k, v =>
    if Slice.compare k e.1 < 0 then (k, v) :: e :: es
    else if Slice.compare k e.1 == 0 then (k, v) :: es
    else e :: Store.insert es k v

/-- Engine contract of `DB::Put` (an in-memory engine: the write always succeeds). -/
def DB.Put (s : Store) (key value : Bytes) : Status × Store :=
  (.ok, Store.insert s key value)

/-- Engine contract of `DB::Delete` (an in-memory engine: the write always succeeds). -/
def DB.Delete (s : Store) (key : Bytes) : Status × Store :=
  (.ok, s.filter (fun e => Slice.compare e.1 key != 0))

/-- The engine cursor `leveldb::Iterator`: the snapshot it reads, and the entries at and after
its current position (`rest = []` when the cursor is not valid). -/
structure Cursor where
  snapshot : Store
  rest : Store
  deriving DecidableEq, Repr

/-- Engine contract of `DB::NewIterator`: a cursor over the current content, not positioned. -/
def DB.NewIterator (s : Store) : Cursor :=
  { snapshot := s, rest := [] }

/-- Engine contract of `Iterator::Valid`. -/
def Cursor.Valid (c : Cursor) : Bool :=
  !c.rest.isEmpty

/-- Engine contract of `Iterator::SeekToFirst`. -/
def Cursor.SeekToFirst (c : Cursor) : Cursor :=
  { c with rest := c.snapshot }

/-- Engine contract of `Iterator::Seek`: position at the first entry whose key is at or past
the target. -/
def Cursor.Seek (c : Cursor) (target : Bytes) : Cursor :=
  { c with rest := c.snapshot.dropWhile (fun e => decide (Slice.compare e.1 target < 0)) }

/-- Engine contract of `Iterator::Next`. -/
def Cursor.Next (c : Cursor) : Cursor :=
  { c with rest := c.rest.tail }

/-- The current entry (`Iterator::key`, `Iterator::value`) of a valid cursor. -/
def Cursor.current (c : Cursor) : Option Entry :=
  c.rest.head?

/-! ## Data model -/

/-- The constant `MESSAGE_OPEN`. -/
def MESSAGE_OPEN : Int := 0

/-- The constant `MESSAGE_CLOSE`. -/
def MESSAGE_CLOSE : Int := 5

/-- The struct `Message` (the key, value, sync and iterator fields are never read). -/
structure Message where
  port_id : Nat
  cmd : Int
  deriving DecidableEq, Repr

/-- Calls on external objects, in the order they are made. -/
inductive Event where
  /-- The call `leveldb::DB::Open`. -/
  | DB_Open
  /-- The call `native_db->db->Get`. -/
  | DB_Get (key : Bytes)
  /-- The call `native_db->db->Put`. -/
  | DB_Put (key value : Bytes) (sync : Bool)
  /-- The call `native_db->db->Delete`. -/
  | DB_Delete (key : Bytes)
  /-- The call `native_db->db->NewIterator`, made for the iterator handle `it`. -/
  | NewIterator (it : Nat) (fill_cache : Bool)
  /-- The statement `delete it_ref->iterator`. -/
  | delete_cursor (it : Nat)
  /-- The statements `delete it_ref->gt; delete it_ref->lt`. -/
  | delete_bounds (it : Nat)
  /-- The statement `delete native_db->path`. -/
  | delete_path
  /-- The statement `delete native_db->iterators`. -/
  | delete_iterators
  /-- The statement `delete native_db->db`. -/
  | delete_db
  /-- The call `Dart_PostInteger(port, code)`. -/
  | Dart_PostInteger (port : Nat) (code : Int)
  /-- The call `freeMessage(m)`. -/
  | freeMessage (m : Message)
  deriving DecidableEq, Repr

/-- The struct `NativeIterator`.  The back pointer `native_db` is the one database of the
`World`. -/
structure NativeIterator where
  iterator : Option Cursor
  is_finalized : Bool
  limit : Int
  is_gt_closed : Bool
  is_lt_closed : Bool
  gt : Option Bytes
  gt_len : Int
  lt : Option Bytes
  lt_len : Int
  is_fill_cache : Bool
  count : Int
  deriving DecidableEq, Repr

/-- The struct `NativeDB` (without the mutex, the condition variable and the thread id).
The field `db` is `none` while there is no valid engine handle. -/
structure NativeDB where
  db : Option Store
  path : Option String
  block_size : Int
  create_if_missing : Bool
  error_if_exists : Bool
  messages : List Message
  is_closed : Bool
  is_finalized : Bool
  iterators : List Nat
  deriving DecidableEq, Repr

/-- The objects of one database: its handle, the iterator handles created for it, and the
trace of external calls. -/
structure World where
  native_db : NativeDB
  heap : List NativeIterator
  trace : List Event
  deriving DecidableEq, Repr

/-- Errors raised to the caller.  `Fault` stands for a call through a pointer that is null or
no longer valid, which the source does not guard. -/
inductive Exn where
  | LevelClosedError
  | LevelCorruptionError
  | LevelIOError
  | Fault
  deriving DecidableEq, Repr

deriving instance DecidableEq for Except

/-- Appends calls on external objects to the trace. -/
def World.emit (w : World) (es : List Event) : World :=
  { w with trace := w.trace ++ es }

/-! ## Finalizers -/

/-- The function `iteratorFinalize(it_ref)`.  The bound buffers are freed but the pointers
`gt` and `lt` are left as they are, so the fields keep their (stale) content; where the source
reads them afterwards (the initial seek of a cursor created after the finalization) the model
reads that content. -/
def iteratorFinalize (w : World) (it_ref : Nat) : World :=
  match w.heap[it_ref]? with
  | none => w
  | some it =>
    if it.is_finalized then w
    else
      let it1 := { it with is_finalized := true }
      match it1.iterator with
      | some _ =>
        -- `std::list::remove` drops every element equal to the pointer
        { native_db := { w.native_db with
                         iterators := w.native_db.iterators.filter (fun j => j != it_ref) }
          heap := w.heap.set it_ref { it1 with iterator := none }
          trace := w.trace ++ [.delete_cursor it_ref, .delete_bounds it_ref] }
      | none =>
        { w with heap := w.heap.set it_ref it1
                 trace := w.trace ++ [.delete_bounds it_ref] }

/-- The loop `while (!native_db->iterators->empty()) iteratorFinalize(front)` of `finalizeDB`;
`fuel` bounds the number of iterations, `none` means the bound was hit with the list still
non-empty. -/
def finalizeLoop : Nat → World → Option World
  | fuel, w =>
    match w.native_db.iterators with
    | [] => some w
    | front :: _ =>
      match fuel with
      | 0 => none
      | fuel + 1 => finalizeLoop fuel (iteratorFinalize w front)

/-- The function `finalizeDB(native_db)`. -/
def finalizeDB (fuel : Nat) (w : World) : Option World :=
  if w.native_db.is_finalized then some w
  else
    let w1 : World :=
      { w with native_db := { w.native_db with is_finalized := true, path := none }
               trace := w.trace ++ [.delete_path] }
    match finalizeLoop fuel w1 with
    | none => none
    | some w2 =>
      some { w2 with native_db := { w2.native_db with db := none }
                     trace := w2.trace ++ [.delete_iterators, .delete_db] }

/-! ## Command queue and worker -/

/-- The function `maybeSendError(port_id, status)`: the posted codes and the return value. -/
def maybeSendError (port_id : Nat) (status : Status) : List Event × Bool :=
  if status.IsNotFound then ([.Dart_PostInteger port_id (-5)], true)
  else if status.IsIOError then ([.Dart_PostInteger port_id (-2)], true)
  else if status.IsCorruption then ([.Dart_PostInteger port_id (-3)], true)
  else if !status.isOk then ([.Dart_PostInteger port_id (-4)], true)
  else ([], false)

/-- The engine entry point `leveldb::DB::Open(options, path, &db)` as seen from this layer:
from the creation policy, the error-if-exists policy, the block size and the path to a status
and the engine handle it stores.  The file system behind it is outside the model, so it is a
parameter of the worker. -/
abbrev EngineOpen := Bool → Bool → Int → Option String → Status × Option Store

/-- The function `processMessageOpen(native_db, m)`. -/
def processMessageOpen (dbOpenEngine : EngineOpen) (w : World) (m : Message) : World :=
  let r := dbOpenEngine w.native_db.create_if_missing w.native_db.error_if_exists
    w.native_db.block_size w.native_db.path
  let w1 : World := { w with native_db := { w.native_db with db := r.2 }
                             trace := w.trace ++ [.DB_Open] }
  let s := maybeSendError m.port_id r.1
  if s.2 then w1.emit s.1
  else (w1.emit s.1).emit [.Dart_PostInteger m.port_id 0]

/-- The function `processMessage(native_db, m)`; `none` is the failed `assert(false)` of the
default case. -/
def processMessage (dbOpenEngine : EngineOpen) (w : World) (m : Message) : Option World :=
  if m.cmd = MESSAGE_OPEN then some (processMessageOpen dbOpenEngine w m)
  else none

/-- How a run of the worker thread ends. -/
inductive WorkerResult where
  /-- The thread function returned after a close command. -/
  | exited (w : World)
  /-- The thread is blocked in `pthread_cond_wait` on an empty queue. -/
  | waiting (w : World)
  /-- The check `assert(false)` of `processMessage` failed on the message `m`. -/
  | aborted (w : World) (m : Message)
  deriving DecidableEq, Repr

/-- The thread function `processMessages(ptr)`.  `fuel` bounds the iterations of its loop and
of the loop inside `finalizeDB`; `none` means the bound was hit. -/
def processMessages (dbOpenEngine : EngineOpen) : Nat → World → Option WorkerResult
  | 0, _ => none
  | fuel + 1, w =>
    match w.native_db.messages with
    | [] => some (.waiting w)
    | m :: q =>
      -- `front()` and `pop()`
      let w1 : World := { w with native_db := { w.native_db with messages := q } }
      if m.cmd = MESSAGE_CLOSE then
        match finalizeDB fuel w1 with
        | none => none
        | some w2 => some (.exited (w2.emit [.Dart_PostInteger m.port_id 0, .freeMessage m]))
      else
        match processMessage dbOpenEngine w1 m with
        | none => some (.aborted w1 m)
        | some w2 => processMessages dbOpenEngine fuel (w2.emit [.freeMessage m])

/-- The function `dbAddMessage(native_db, m)`. -/
def dbAddMessage (w : World) (m : Message) : World :=
  { w with native_db := { w.native_db with messages := w.native_db.messages ++ [m] } }

/-- The native function `dbOpen`: the new database handle with its open command queued. -/
def dbOpen (port_id : Nat) (path : String) (block_size : Int)
    (create_if_missing error_if_exists : Bool) : World :=
  let native_db : NativeDB :=
    { db := none
      path := some path
      block_size := block_size
      create_if_missing := create_if_missing
      error_if_exists := error_if_exists
      messages := []
      is_closed := false
      is_finalized := false
      iterators := [] }
  dbAddMessage { native_db := native_db, heap := [], trace := [] }
    { port_id := port_id, cmd := MESSAGE_OPEN }

/-- The native function `dbClose`. -/
def dbClose (w : World) (port_id : Nat) : World :=
  if w.native_db.is_closed then w.emit [.Dart_PostInteger port_id (-1)]
  else
    let w1 : World := { w with native_db := { w.native_db with is_closed := true } }
    dbAddMessage w1 { port_id := port_id, cmd := MESSAGE_CLOSE }

/-! ## Synchronous API -/

/-- The function `throwClosedException()`. -/
def throwClosedException {α : Type} : Except Exn α :=
  .error .LevelClosedError

/-- The function `maybeThrowStatus(status)`. -/
def maybeThrowStatus (status : Status) : Except Exn Unit :=
  if status.isOk then .ok ()
  else if status.IsCorruption then .error .LevelCorruptionError
  else .error .LevelIOError

/-- Arguments of `syncNew` after the receiver and the database. -/
structure IteratorArgs where
  limit : Int
  fillCache : Bool
  gt : Option Bytes
  is_gt_closed : Bool
  lt : Option Bytes
  is_lt_closed : Bool
  deriving DecidableEq, Repr

/-- The iterator handle `syncNew` allocates and fills from its arguments. -/
def newNativeIterator (a : IteratorArgs) : NativeIterator :=
  { iterator := none
    is_finalized := false
    count := 0
    limit := a.limit
    is_fill_cache := a.fillCache
    gt := a.gt
    gt_len := match a.gt with
      | none => 0
      | some data => data.length
    lt := a.lt
    lt_len := match a.lt with
      | none => 0
      | some data => data.length
    is_gt_closed := a.is_gt_closed
    is_lt_closed := a.is_lt_closed }

/-- The native function `syncNew`.  The new iterator handle is the next free index of the
heap. -/
def syncNew (w : World) (a : IteratorArgs) : Except Exn Unit × World :=
  if w.native_db.is_closed then (throwClosedException, w)
  else (.ok (), { w with heap := w.heap ++ [newNativeIterator a] })

/-- The function `increaseToMultipleOf4` on `uint32_t`. -/
def increaseToMultipleOf4 (v : Nat) : Nat :=
  ((v + 3) % 2 ^ 32) &&& 0xFFFFFFFC

/-- The call `memcpy(data + off, src, src.length)` into the buffer `data`; it requires
`off + src.length ≤ data.length`. -/
def memcpy (data : Bytes) (off : Nat) (src : Bytes) : Bytes :=
  data.take off ++ src ++ data.drop (off + src.length)

/-- The buffer built in the emitting branch of `syncNext`: a zero-filled typed-data array of
`key_size_mult_4 + value.size() + 4` bytes, the four header bytes, and the two copies. -/
def encodePair (key value : Bytes) : Bytes :=
  let key_size_mult_4 := increaseToMultipleOf4 (key.length % 2 ^ 32)
  let data : Bytes := List.replicate (key_size_mult_4 + value.length + 4) 0
  let data := data.set 0 (key.length &&& 0xFF)
  let data := data.set 1 ((key.length >>> 8) &&& 0xFF)
  let data := data.set 2 (key_size_mult_4 &&& 0xFF)
  let data := data.set 3 ((key_size_mult_4 >>> 8) &&& 0xFF)
  let data := memcpy data 4 key
  memcpy data (4 + key_size_mult_4) value

/-- The initial seek of `syncNext`, on the cursor just created. -/
def initialSeek (native_iterator : NativeIterator) (it : Cursor) : Cursor :=
  if native_iterator.gt_len > 0 then
    let start_slice := mkSlice native_iterator.gt native_iterator.gt_len
    let it := it.Seek start_slice
    if !native_iterator.is_gt_closed && it.Valid then
      -- pointing at `start_slice` and not inclusive: advance by one
      match it.current with
      | some (key, _) => if Slice.compare key start_slice = 0 then it.Next else it
      | none => it
    else it
  else it.SeekToFirst

/-- The first block of `syncNext`: create the cursor, register the iterator in the list of
the database and perform the initial seek.  `none` is the call through a null engine handle. -/
def createCursor (w : World) (i : Nat) (native_iterator : NativeIterator) :
    Option (World × NativeIterator) :=
  match w.native_db.db with
  | none => none
  | some store =>
    let it := initialSeek native_iterator (DB.NewIterator store)
    let ni := { native_iterator with iterator := some it }
    some ({ native_db := { w.native_db with iterators := w.native_db.iterators ++ [i] }
            heap := w.heap.set i ni
            trace := w.trace ++ [.NewIterator i native_iterator.is_fill_cache] }, ni)

/-- The upper-bound test of `syncNext` on the current key. -/
def isQueryLimitReached (ni : NativeIterator) (key : Bytes) : Bool :=
  if ni.lt_len > 0 then
    let cmp := Slice.compare key (mkSlice ni.lt ni.lt_len)
    (cmp == 0 && !ni.is_lt_closed) || decide (cmp > 0)
  else false

/-- The second part of `syncNext`, from the declaration of `end_slice` on: the validity,
limit and upper-bound tests, then either the finalization or the emitted pair.  `ni` is the
iterator handle as the first part left it. -/
def syncNextEmit (w : World) (i : Nat) (ni : NativeIterator) :
    Except Exn (Option Bytes) × World :=
  let is_limit_reached := decide (ni.limit ≥ 0) && decide (ni.count ≥ ni.limit)
  if ni.is_finalized then
    -- `is_valid` stays false
    (.ok none, iteratorFinalize w i)
  else
    match ni.iterator with
    | none => (.error .Fault, w)
    | some it =>
      match it.current with
      | none => (.ok none, iteratorFinalize w i)
      | some (key, value) =>
        if isQueryLimitReached ni key || is_limit_reached then
          (.ok none, iteratorFinalize w i)
        else
          (.ok (some (encodePair key value)),
            { w with heap := w.heap.set i
                       { ni with count := ni.count + 1, iterator := some it.Next } })

/-- The native function `syncNext`; the result `none` is `Dart_Null()`. -/
def syncNext (w : World) (i : Nat) : Except Exn (Option Bytes) × World :=
  match w.heap[i]? with
  | none => (.error .Fault, w)
  | some native_iterator =>
    if w.native_db.is_closed then (throwClosedException, w)
    else if !w.native_db.is_finalized && native_iterator.iterator.isNone then
      match createCursor w i native_iterator with
      | none => (.error .Fault, w)
      | some (w1, ni) => syncNextEmit w1 i ni
    else syncNextEmit w i native_iterator

/-- The native function `syncGet`; the result `none` is `Dart_Null()`. -/
def syncGet (w : World) (key : Bytes) : Except Exn (Option Bytes) × World :=
  if w.native_db.is_closed then (throwClosedException, w)
  else
    match w.native_db.db with
    | none => (.error .Fault, w)
    | some store =>
      let r := DB.Get store key
      let w1 := w.emit [.DB_Get key]
      if r.1.IsNotFound then (.ok none, w1)
      else if r.1.isOk then (.ok (some r.2), w1)
      else ((maybeThrowStatus r.1).map (fun _ => none), w1)

/-- The native function `syncPut`. -/
def syncPut (w : World) (key value : Bytes) (is_sync : Bool) : Except Exn Unit × World :=
  if w.native_db.is_closed then (throwClosedException, w)
  else
    match w.native_db.db with
    | none => (.error .Fault, w)
    | some store =>
      let r := DB.Put store key value
      (maybeThrowStatus r.1,
        { w with native_db := { w.native_db with db := some r.2 }
                 trace := w.trace ++ [.DB_Put key value is_sync] })

/-- The native function `syncDelete`. -/
def syncDelete (w : World) (key : Bytes) : Except Exn Unit × World :=
  if w.native_db.is_closed then (throwClosedException, w)
  else
    match w.native_db.db with
    | none => (.error .Fault, w)
    | some store =>
      let r := DB.Delete store key
      (maybeThrowStatus r.1,
        { w with native_db := { w.native_db with db := some r.2 }
                 trace := w.trace ++ [.DB_Delete key] })

/-! ## Repeated advance and the stated range -/

/-- Results of `n` successive calls of `syncNext` on the iterator handle `i`, and the state
they leave. -/
def syncNextN (w : World) (i : Nat) : Nat → List (Except Exn (Option Bytes)) × World
  | 0 => ([], w)
  | n + 1 =>
    let r := syncNext w i
    let rs := syncNextN r.2 i n
    (r.1 :: rs.1, rs.2)

/-- The engine keeps its entries in strictly ascending key order. -/
def Store.Ordered (es : Store) : Prop :=
  es.Pairwise (fun e1 e2 => Slice.compare e1.1 e2.1 < 0)

/-- The lower-bound condition as the specification words it: the bound is absent, or the key
is greater than the bound, or the key equals the bound and the bound is inclusive. -/
def lowerOK (a : IteratorArgs) (k : Bytes) : Bool :=
  match a.gt with
  | none => true
  | some lower => decide (Slice.compare k lower > 0) || (decide (k = lower) && a.is_gt_closed)

/-- The upper-bound condition as the specification words it: the bound is absent, or the key
is less than the bound, or the key equals the bound and the bound is inclusive. -/
def upperOK (a : IteratorArgs) (k : Bytes) : Bool :=
  match a.lt with
  | none => true
  | some upper => decide (Slice.compare k upper < 0) || (decide (k = upper) && a.is_lt_closed)

/-- The stored entries a scan with the arguments `a` is specified to visit. -/
def matching (a : IteratorArgs) (es : Store) : Store :=
  es.filter (fun e => lowerOK a e.1 && upperOK a e.1)

/-- A bound as the range-scan claims take it: absent, or a non-empty byte string. -/
def boundOK : Option Bytes → Prop
  | none => True
  | some b => b ≠ []

/-- The bound the scan applies for a bound argument: `syncNext` tests `gt_len > 0` and
`lt_len > 0`, so a bound of zero length is treated like an absent one. -/
def effectiveBound : Option Bytes → Option Bytes
  | some [] => none
  | b => b

/-- The scan arguments with each bound replaced by the bound the scan applies. -/
def effectiveArgs (a : IteratorArgs) : IteratorArgs :=
  { a with gt := effectiveBound a.gt, lt := effectiveBound a.lt }

/-- The limit as the specification words it: a negative limit keeps every entry, a
non-negative limit keeps the first `limit` entries. -/
def limited (limit : Int) (out : Store) : Store :=
  if limit < 0 then out else out.take limit.toNat

/-- What `n` calls return when the scan emits the entries `out` and then ends. -/
def expectedResults (out : Store) (n : Nat) : List (Except Exn (Option Bytes)) :=
  (out.map (fun e : Entry => Except.ok (some (encodePair e.1 e.2))) ++
    List.replicate n (Except.ok none)).take n

/-- The entries emitted from a cursor at `rest` by an iterator with the parameters of `ni`
whose running count is `count`: up to the first entry that fails the upper-bound test or
finds the limit reached. -/
def scanOut (ni : NativeIterator) : Store → Int → Store
  | [], _ => []
  | e :: rest, count =>
    if isQueryLimitReached ni e.1 || (decide (ni.limit ≥ 0) && decide (count ≥ ni.limit)) then []
    else e :: scanOut ni rest (count + 1)

/-- The layout of an emitted pair as the specification words it, for a key `key`, a value
`value` and the returned buffer `buf`: the length is `4 + p + |value|` with `p` the key length
rounded up to the next multiple of 4, bytes 0..1 are the key length and bytes 2..3 are `p`
(both little-endian), then the key, zero padding up to `p`, and the value. -/
def statedLayout (key value buf : Bytes) : Prop :=
  let p := (key.length + 3) / 4 * 4
  buf.length = 4 + p + value.length ∧
  buf.getD 0 0 < 256 ∧ buf.getD 1 0 < 256 ∧ buf.getD 0 0 + 256 * buf.getD 1 0 = key.length ∧
  buf.getD 2 0 < 256 ∧ buf.getD 3 0 < 256 ∧ buf.getD 2 0 + 256 * buf.getD 3 0 = p ∧
  (buf.drop 4).take key.length = key ∧
  (buf.drop (4 + key.length)).take (p - key.length) = List.replicate (p - key.length) 0 ∧
  buf.drop (4 + p) = value

/-- The stored entries of the worked examples: the keys `a` to `e`. -/
def exampleStore : Store :=
  [([97], [1]), ([98], [2]), ([99], [3]), ([100], [4]), ([101], [5])]

/-- An open database holding `exampleStore`, with no iterator yet. -/
def exampleWorld : World :=
  { native_db :=
      { db := some exampleStore
        path := some "db"
        block_size := 4096
        create_if_missing := true
        error_if_exists := false
        messages := []
        is_closed := false
        is_finalized := false
        iterators := [] }
    heap := []
    trace := [] }

/-- Scan arguments of the bound example: lower bound `b` exclusive, upper bound `d`
inclusive, no limit. -/
def exampleBounds : IteratorArgs :=
  { limit := -1, fillCache := true, gt := some [98], is_gt_closed := false,
    lt := some [100], is_lt_closed := true }

/-- Scan arguments of the limit example: no bounds, limit 2. -/
def exampleLimit : IteratorArgs :=
  { limit := 2, fillCache := true, gt := none, is_gt_closed := false,
    lt := none, is_lt_closed := false }

/-- The live-iterator list is well formed: no iterator handle occurs twice, and every member
is an iterator of the heap that is not finalized and has its cursor. -/
def liveSetOK (w : World) : Bool :=
  decide w.native_db.iterators.Nodup &&
    w.native_db.iterators.all (fun j =>
      match w.heap[j]? with
      | some it => !it.is_finalized && it.iterator.isSome
      | none => false)

/-- The deallocations `finalizeDB` makes for the iterators `l`, in order. -/
def cascadeEvents (l : List Nat) : List Event :=
  l.flatMap (fun j => [Event.delete_cursor j, Event.delete_bounds j])

/-- The calls `processMessageOpen` makes for the open command `m` on the database `w`. -/
def openEvents (dbOpenEngine : EngineOpen) (w : World) (m : Message) : List Event :=
  let r := dbOpenEngine w.native_db.create_if_missing w.native_db.error_if_exists
    w.native_db.block_size w.native_db.path
  let s := maybeSendError m.port_id r.1
  [Event.DB_Open] ++ s.1 ++ (if s.2 then [] else [Event.Dart_PostInteger m.port_id 0])

/-- The reply codes posted in a trace, with their ports, in order. -/
def replies : List Event → List (Nat × Int)
  | [] => []
  | .Dart_PostInteger port code :: es => (port, code) :: replies es
  | _ :: es => replies es

/-- An engine whose `Open` succeeds and yields `exampleStore`. -/
def exampleEngine : EngineOpen :=
  fun _ _ _ _ => (.ok, some exampleStore)

/-- The state a run of the worker ends in. -/
def WorkerResult.world : WorkerResult → World
  | .exited w => w
  | .waiting w => w
  | .aborted w _ => w

/-- The database after `dbOpen` and the worker's processing of the open command on
`exampleEngine`. -/
def openedWorld : World :=
  ((processMessages exampleEngine 2 (dbOpen 1 "db" 4096 true false)).map
    WorkerResult.world).getD exampleWorld

/-- The state after `syncNew` with `exampleBounds` on `openedWorld` and four calls of
`syncNext` on the new iterator: two pairs, the end, and one more call. -/
def reenteredWorld : World :=
  (syncNextN (syncNew openedWorld exampleBounds).2 0 4).2

/-- A queue for the worker: an open command, a close command, and an open command behind
it. -/
def exampleQueue : World :=
  dbAddMessage (dbClose (dbOpen 1 "db" 4096 true false) 2) { port_id := 3, cmd := MESSAGE_OPEN }

/-- Scan arguments with an upper bound that is set but of zero length (exclusive), no lower
bound and no limit. -/
def exampleEmptyUpper : IteratorArgs :=
  { limit := -1, fillCache := true, gt := none, is_gt_closed := false,
    lt := some [], is_lt_closed := false }

/-- The upper bound `u` is honoured by the key `key`, as the specification words it: the key
is not greater than `u`, and when the bound is exclusive the key is not `u`. -/
def honoursUpper (u : Bytes) (is_lt_closed : Bool) (key : Bytes) : Prop :=
  ¬ 0 < Slice.compare key u ∧ (is_lt_closed = false → key ≠ u)

/-- Scan arguments with limit 2, no lower bound, and an upper bound that is set but of zero
length (exclusive). -/
def exampleLimitEmptyUpper : IteratorArgs :=
  { limit := 2, fillCache := true, gt := none, is_gt_closed := false,
    lt := some [], is_lt_closed := false }

/-! ## Byte order -/

theorem Slice.compare_eq_zero_iff (a b : Bytes) : Slice.compare a b = 0 ↔ a = b := by
  induction a generalizing b with
  | nil => cases b <;> simp [Slice.compare]
  | cons x xs ih =>
    cases b with
    | nil => simp [Slice.compare]
    | cons y ys =>
      simp only [Slice.compare]
      split_ifs with h1 h2
      · simp; intro h; omega
      · simp; intro h; omega
      · have : x = y := by omega
        simp [ih, this]

theorem Slice.compare_self (a : Bytes) : Slice.compare a a = 0 :=
  (Slice.compare_eq_zero_iff a a).2 rfl

theorem Slice.compare_pos_iff (a b : Bytes) : 0 < Slice.compare a b ↔ Slice.compare b a < 0 := by
  induction a generalizing b with
  | nil => cases b <;> simp [Slice.compare]
  | cons x xs ih =>
    cases b with
    | nil => simp [Slice.compare]
    | cons y ys =>
      simp only [Slice.compare]
      split_ifs with h1 h2 h3 <;> first | omega | simp | exact ih ys

theorem Slice.compare_trans (a b c : Bytes) (h1 : Slice.compare a b < 0)
    (h2 : Slice.compare b c < 0) : Slice.compare a c < 0 := by
  induction a generalizing b c with
  | nil =>
    cases c with
    | nil => cases b <;> simp [Slice.compare] at h1 h2
    | cons z zs => simp [Slice.compare]
  | cons x xs ih =>
    cases b with
    | nil => simp [Slice.compare] at h1
    | cons y ys =>
      cases c with
      | nil => simp [Slice.compare] at h2
      | cons z zs =>
        simp only [Slice.compare] at h1 h2 ⊢
        split_ifs at h1 h2 ⊢ <;> first | omega | simp | exact ih ys zs h1 h2

theorem Slice.compare_lt_iff_lex (a b : Bytes) :
    Slice.compare a b < 0 ↔ List.Lex (fun x y : Nat => x < y) a b := by
  induction a generalizing b with
  | nil =>
    cases b with
    | nil => simp [Slice.compare]
    | cons y ys => simp [Slice.compare, List.Lex.nil]
  | cons x xs ih =>
    cases b with
    | nil => simp [Slice.compare]
    | cons y ys =>
      simp only [Slice.compare]
      split_ifs with h1 h2
      · simp [List.Lex.rel h1]
      · constructor
        · intro h; omega
        · intro h
          cases h with
          | cons h => omega
          | rel h => omega
      · have : x = y := by omega
        subst this
        rw [ih ys]
        exact List.Lex.cons_iff.symm

/-! ## Scans over an ordered list -/

theorem dropWhile_eq_filter_of_pairwise {α : Type} (r : α → α → Prop) (p : α → Bool)
    (hp : ∀ a b, r a b → p a = false → p b = false) :
    ∀ l : List α, l.Pairwise r → l.dropWhile p = l.filter (fun a => !p a)
  | [], _ => rfl
  | a :: l, hs => by
    have hs1 := List.pairwise_cons.1 hs
    cases hpa : p a with
    | true =>
      rw [List.dropWhile_cons_of_pos hpa, List.filter_cons_of_neg (by simp [hpa])]
      exact dropWhile_eq_filter_of_pairwise r p hp l hs1.2
    | false =>
      rw [List.dropWhile_cons_of_neg (by simp [hpa]), List.filter_cons_of_pos (by simp [hpa])]
      congr 1
      symm
      rw [List.filter_eq_self]
      intro b hb
      simp [hp a b (hs1.1 b hb) hpa]

theorem takeWhile_eq_filter_of_pairwise {α : Type} (r : α → α → Prop) (q : α → Bool)
    (hq : ∀ a b, r a b → q a = false → q b = false) :
    ∀ l : List α, l.Pairwise r → l.takeWhile q = l.filter q
  | [], _ => rfl
  | a :: l, hs => by
    have hs1 := List.pairwise_cons.1 hs
    cases hqa : q a with
    | true =>
      rw [List.takeWhile_cons_of_pos hqa, List.filter_cons_of_pos hqa]
      congr 1
      exact takeWhile_eq_filter_of_pairwise r q hq l hs1.2
    | false =>
      rw [List.takeWhile_cons_of_neg (by simp [hqa]), List.filter_cons_of_neg (by simp [hqa])]
      symm
      rw [List.filter_eq_nil_iff]
      intro b hb
      simp [hq a b (hs1.1 b hb) hqa]

theorem mkSlice_some_length (b : Bytes) : mkSlice (some b) (b.length : Int) = b := by
  simp [mkSlice]

theorem length_pos_of_boundOK {b : Bytes} (h : boundOK (some b)) : (0 : Int) < b.length := by
  cases b with
  | nil => exact absurd rfl h
  | cons x xs => simp

theorem Store.Ordered.tail {e : Entry} {es : Store} (h : Store.Ordered (e :: es)) :
    Store.Ordered es :=
  (List.pairwise_cons.1 h).2

theorem Store.Ordered.head_lt {e : Entry} {es : Store} (h : Store.Ordered (e :: es)) :
    ∀ x ∈ es, Slice.compare e.1 x.1 < 0 :=
  (List.pairwise_cons.1 h).1

theorem Store.Ordered.filter {es : Store} (h : Store.Ordered es) (p : Entry → Bool) :
    Store.Ordered (es.filter p) :=
  List.Pairwise.filter p h

/-- Seeking in an ordered snapshot lands on the entries at or past the target. -/
theorem seek_rest (es : Store) (hs : Store.Ordered es) (t : Bytes) :
    ((DB.NewIterator es).Seek t).rest = es.filter (fun e => decide (0 ≤ Slice.compare e.1 t)) := by
  simp only [Cursor.Seek, DB.NewIterator]
  rw [dropWhile_eq_filter_of_pairwise (fun e1 e2 : Entry => Slice.compare e1.1 e2.1 < 0) _ _ es hs]
  · apply List.filter_congr
    intro e _
    by_cases h : Slice.compare e.1 t < 0
    · simp [h]
    · simp [h]; omega
  · intro a b hab ha
    simp only [decide_eq_false_iff_not, not_lt] at ha ⊢
    by_contra hb
    have := Slice.compare_trans a.1 b.1 t hab (by omega)
    omega

/-- The initial seek of a new iterator leaves the cursor on the stored entries that satisfy
the lower-bound condition. -/
theorem initialSeek_new (a : IteratorArgs) (es : Store) (hs : Store.Ordered es)
    (hgt : boundOK a.gt) :
    initialSeek (newNativeIterator a) (DB.NewIterator es) =
      { snapshot := es, rest := es.filter (fun e => lowerOK a e.1) } := by
  cases hg : a.gt with
  | none =>
    simp [initialSeek, newNativeIterator, hg, Cursor.SeekToFirst, DB.NewIterator, lowerOK]
  | some l =>
    rw [hg] at hgt
    have hlen := length_pos_of_boundOK hgt
    have hsl : mkSlice (some l) (l.length : Int) = l := mkSlice_some_length l
    have hrest := seek_rest es hs l
    have hsnap : ((DB.NewIterator es).Seek l).snapshot = es := rfl
    simp only [initialSeek, newNativeIterator, hg, hlen, if_true, hsl]
    cases hc : a.is_gt_closed with
    | true =>
      simp only [Bool.not_true, Bool.false_and, Bool.false_eq_true, if_false]
      have : (DB.NewIterator es).Seek l = { snapshot := es, rest := ((DB.NewIterator es).Seek l).rest } := rfl
      rw [this, hrest]
      congr 1
      apply List.filter_congr
      intro e _
      simp only [lowerOK, hg, hc, Bool.and_true]
      have h0 := Slice.compare_eq_zero_iff e.1 l
      by_cases h1 : 0 < Slice.compare e.1 l
      · simp [h1]; omega
      · by_cases h2 : e.1 = l
        · simp [h2, Slice.compare_self]
        · have : Slice.compare e.1 l ≠ 0 := fun h => h2 (h0.1 h)
          simp [h1, h2]; omega
    | false =>
      have hfilt : es.filter (fun e => lowerOK a e.1) =
          (es.filter (fun e => decide (0 ≤ Slice.compare e.1 l))).filter
            (fun e => decide (0 < Slice.compare e.1 l)) := by
        rw [List.filter_filter]
        apply List.filter_congr
        intro e _
        simp only [lowerOK, hg, hc, Bool.and_false, Bool.or_false]
        by_cases h1 : 0 < Slice.compare e.1 l
        · simp [h1]; omega
        · simp [h1]
      have hord := hs.filter (fun e => decide (0 ≤ Slice.compare e.1 l))
      rw [hfilt]
      rw [← hrest] at hord ⊢
      generalize hD : (DB.NewIterator es).Seek l = c at hord hsnap
      obtain ⟨snap, rest⟩ := c
      simp only at hsnap hord ⊢
      subst hsnap
      cases rest with
      | nil => simp [Cursor.Valid]
      | cons e D =>
        have hall : ∀ x ∈ D, 0 < Slice.compare x.1 l := by
          intro x hx
          have h1 := hord.head_lt x hx
          have h2 : 0 ≤ Slice.compare e.1 l := by
            have : e ∈ ((DB.NewIterator snap).Seek l).rest := by rw [hD]; simp
            rw [hrest] at this
            simpa using (List.mem_filter.1 this).2
          rw [Slice.compare_pos_iff]
          rcases Nat.eq_zero_or_pos (Slice.compare e.1 l).toNat with h3 | h3
          · have h4 : Slice.compare e.1 l = 0 := by omega
            rw [(Slice.compare_eq_zero_iff _ _).1 h4] at h1
            exact h1
          · have h4 : Slice.compare l e.1 < 0 := (Slice.compare_pos_iff _ _).1 (by omega)
            exact Slice.compare_trans _ _ _ h4 h1
        have hD' : D.filter (fun e => decide (0 < Slice.compare e.1 l)) = D := by
          rw [List.filter_eq_self]
          intro x hx
          simpa using hall x hx
        obtain ⟨k, v⟩ := e
        simp only [Cursor.Valid, Cursor.current, List.head?_cons, Bool.not_false, Bool.true_and,
          List.isEmpty_cons, Bool.not_false, if_true]
        by_cases h0 : Slice.compare k l = 0
        · simp [h0, Cursor.Next, hD']
        · have hpos : 0 < Slice.compare k l := by
            have : (k, v) ∈ ((DB.NewIterator snap).Seek l).rest := by rw [hD]; simp
            rw [hrest] at this
            have := (List.mem_filter.1 this).2
            simp at this
            omega
          simp [h0, hpos, hD']

/-- On an iterator made by `syncNew`, the upper-bound test of `syncNext` stops the scan exactly
at the keys that fail the stated upper-bound condition. -/
theorem isQueryLimitReached_new (a : IteratorArgs) (hlt : boundOK a.lt) (ni : NativeIterator)
    (h1 : ni.lt = a.lt) (h2 : ni.lt_len = (newNativeIterator a).lt_len)
    (h3 : ni.is_lt_closed = a.is_lt_closed) (k : Bytes) :
    isQueryLimitReached ni k = !upperOK a k := by
  cases hl : a.lt with
  | none =>
    simp [isQueryLimitReached, h2, newNativeIterator, hl, upperOK]
  | some u =>
    rw [hl] at hlt
    have hlen := length_pos_of_boundOK hlt
    have h0 := Slice.compare_eq_zero_iff k u
    simp only [isQueryLimitReached, h1, h2, h3, newNativeIterator, hl, hlen, if_true,
      mkSlice_some_length, upperOK]
    by_cases hk : k = u
    · subst hk
      simp [Slice.compare_self]
    · have hne : Slice.compare k u ≠ 0 := fun h => hk (h0.1 h)
      by_cases hneg : Slice.compare k u < 0
      · have : ¬ Slice.compare k u > 0 := by omega
        simp [hk, hne, hneg, this]
      · have : Slice.compare k u > 0 := by omega
        simp [hk, hne, hneg, this]

theorem scanOut_congr (ni ni' : NativeIterator) (h1 : ni'.lt = ni.lt)
    (h2 : ni'.lt_len = ni.lt_len) (h3 : ni'.is_lt_closed = ni.is_lt_closed)
    (h4 : ni'.limit = ni.limit) : ∀ (rest : Store) (count : Int),
    scanOut ni' rest count = scanOut ni rest count
  | [], _ => rfl
  | e :: rest, count => by
    simp only [scanOut, isQueryLimitReached, h1, h2, h3, h4]
    rw [scanOut_congr ni ni' h1 h2 h3 h4 rest (count + 1)]

/-- Without a limit the scan emits the entries up to the first one that fails the upper-bound
test. -/
theorem scanOut_unlimited (ni : NativeIterator) (hl : ni.limit < 0) :
    ∀ (rest : Store) (count : Int),
    scanOut ni rest count = rest.takeWhile (fun e => !isQueryLimitReached ni e.1)
  | [], _ => rfl
  | e :: rest, count => by
    have : ¬ ni.limit ≥ 0 := by omega
    simp only [scanOut, this, decide_False, Bool.false_and, Bool.or_false]
    cases hq : isQueryLimitReached ni e.1 with
    | true => simp [List.takeWhile_cons, hq]
    | false =>
      simp only [List.takeWhile_cons, hq, Bool.false_eq_true, if_false, Bool.not_false, if_true]
      rw [scanOut_unlimited ni hl rest (count + 1)]

/-- With a limit the scan emits at most the remaining number of those entries. -/
theorem scanOut_limited (ni : NativeIterator) (hl : 0 ≤ ni.limit) :
    ∀ (rest : Store) (count : Int), count ≤ ni.limit →
    scanOut ni rest count =
      (rest.takeWhile (fun e => !isQueryLimitReached ni e.1)).take (ni.limit - count).toNat
  | [], _, _ => by simp [scanOut]
  | e :: rest, count, hc => by
    simp only [scanOut]
    cases hq : isQueryLimitReached ni e.1 with
    | true => simp [List.takeWhile_cons, hq]
    | false =>
      simp only [List.takeWhile_cons, hq, Bool.false_or, Bool.not_false, if_true]
      by_cases hreach : count ≥ ni.limit
      · have : (ni.limit - count).toNat = 0 := by omega
        simp [hl, hreach, this]
      · have : (ni.limit - count).toNat = (ni.limit - (count + 1)).toNat + 1 := by omega
        simp only [ge_iff_le, hl, decide_True, hreach, decide_False, Bool.and_false,
          Bool.false_eq_true, if_false, this, List.take_succ_cons]
        rw [scanOut_limited ni hl rest (count + 1) (by omega)]

/-- In an ordered store, scanning the entries past the lower bound up to the first failure of
the upper-bound condition visits exactly the stored entries inside both bounds. -/
theorem takeWhile_upperOK (a : IteratorArgs) (es : Store) (hs : Store.Ordered es) :
    (es.filter (fun e => lowerOK a e.1)).takeWhile (fun e => upperOK a e.1) = matching a es := by
  rw [takeWhile_eq_filter_of_pairwise (fun e1 e2 : Entry => Slice.compare e1.1 e2.1 < 0) _ _ _
    (hs.filter _)]
  · rw [List.filter_filter]
    apply List.filter_congr
    intro e _
    rw [Bool.and_comm]
  · intro x y hxy hx
    cases hu : a.lt with
    | none => simp [upperOK, hu] at hx
    | some u =>
      simp only [upperOK, hu, Bool.or_eq_false_iff, decide_eq_false_iff_not, not_lt,
        Bool.and_eq_false_imp, decide_eq_true_eq] at hx ⊢
      have hyu : 0 < Slice.compare y.1 u := by
        rw [Slice.compare_pos_iff]
        rcases Nat.eq_zero_or_pos (Slice.compare x.1 u).toNat with h3 | h3
        · have h4 : Slice.compare x.1 u = 0 := by omega
          rw [(Slice.compare_eq_zero_iff _ _).1 h4] at hxy
          exact hxy
        · have h4 : Slice.compare u x.1 < 0 := (Slice.compare_pos_iff _ _).1 (by omega)
          exact Slice.compare_trans _ _ _ h4 hxy
      refine ⟨by omega, fun h => ?_⟩
      rw [h, Slice.compare_self] at hyu
      omega

/-! ## One call of `syncNext` -/

theorem lt_length_of_getElem? {α : Type} {l : List α} {i : Nat} {a : α} (h : l[i]? = some a) :
    i < l.length := by
  by_contra hc
  rw [List.getElem?_eq_none (by omega)] at h
  cases h

theorem getElem?_set_same {α : Type} {l : List α} {i : Nat} {a b : α} (h : l[i]? = some a) :
    (l.set i b)[i]? = some b := by
  rw [List.getElem?_set]
  simp [lt_length_of_getElem? h]

theorem iteratorFinalize_of_finalized (w : World) (i : Nat) (ni : NativeIterator)
    (h : w.heap[i]? = some ni) (hf : ni.is_finalized = true) : iteratorFinalize w i = w := by
  simp [iteratorFinalize, h, hf]

/-- What `syncNext` does on an iterator that is already finalized. -/
theorem syncNext_of_finalized (w : World) (i : Nat) (ni : NativeIterator)
    (h : w.heap[i]? = some ni) (hf : ni.is_finalized = true)
    (hc : w.native_db.is_closed = false)
    (hdb : w.native_db.db.isSome = true ∨ w.native_db.is_finalized = true) :
    ∃ w' ni', syncNext w i = (.ok none, w') ∧ w'.heap[i]? = some ni' ∧
      ni'.is_finalized = true ∧ ni'.count = ni.count ∧ w'.native_db.is_closed = false ∧
      w'.native_db.db = w.native_db.db ∧ w'.native_db.is_finalized = w.native_db.is_finalized := by
  by_cases hcreate : (!w.native_db.is_finalized && ni.iterator.isNone) = true
  · have hnf : w.native_db.is_finalized = false := by
      cases hx : w.native_db.is_finalized <;> simp [hx] at hcreate ⊢
    have hsome : w.native_db.db.isSome = true := by
      rcases hdb with h1 | h1
      · exact h1
      · rw [hnf] at h1; cases h1
    obtain ⟨store, hstore⟩ := Option.isSome_iff_exists.1 hsome
    let ni1 : NativeIterator :=
      { ni with iterator := some (initialSeek ni (DB.NewIterator store)) }
    let w1 : World :=
      { native_db := { w.native_db with iterators := w.native_db.iterators ++ [i] }
        heap := w.heap.set i ni1
        trace := w.trace ++ [.NewIterator i ni.is_fill_cache] }
    have hcc : createCursor w i ni = some (w1, ni1) := by
      simp [createCursor, hstore, w1, ni1]
    have h1 : w1.heap[i]? = some ni1 := getElem?_set_same h
    refine ⟨w1, ni1, ?_, h1, hf, rfl, hc, rfl, rfl⟩
    have hfin : iteratorFinalize w1 i = w1 := iteratorFinalize_of_finalized w1 i ni1 h1 hf
    simp only [syncNext, h, hc, hcreate, hcc, if_true]
    simp [syncNextEmit, ni1, hf, hfin]
  · refine ⟨w, ni, ?_, h, hf, rfl, hc, rfl, rfl⟩
    have hfin : iteratorFinalize w i = w := iteratorFinalize_of_finalized w i ni h hf
    simp only [syncNext, h, hc, hcreate]
    simp [syncNextEmit, hf, hfin]

/-- Once finalized, every further call returns end and leaves the count as it is. -/
theorem syncNextN_of_finalized (i : Nat) : ∀ (n : Nat) (w : World) (ni : NativeIterator),
    w.heap[i]? = some ni → ni.is_finalized = true → w.native_db.is_closed = false →
    (w.native_db.db.isSome = true ∨ w.native_db.is_finalized = true) →
    (syncNextN w i n).1 = List.replicate n (.ok none) ∧
      ∃ ni', (syncNextN w i n).2.heap[i]? = some ni' ∧ ni'.is_finalized = true ∧
        ni'.count = ni.count
  | 0, w, ni, h, hf, _, _ => ⟨rfl, ni, h, hf, rfl⟩
  | n + 1, w, ni, h, hf, hc, hdb => by
    obtain ⟨w', ni', hs, h', hf', hcnt, hc', hdb', hfin'⟩ := syncNext_of_finalized w i ni h hf hc hdb
    have ih := syncNextN_of_finalized i n w' ni' h' hf' hc' (by rw [hdb', hfin']; exact hdb)
    simp only [syncNextN, hs, List.replicate_succ]
    exact ⟨by rw [ih.1], by rw [← hcnt]; exact ih.2⟩

theorem expectedResults_nil (n : Nat) :
    expectedResults [] n = List.replicate n (.ok none) := by
  simp [expectedResults]

theorem expectedResults_zero (out : Store) : expectedResults out 0 = [] := by
  simp [expectedResults]

theorem expectedResults_cons (e : Entry) (out : Store) (n : Nat) :
    expectedResults (e :: out) (n + 1) =
      .ok (some (encodePair e.1 e.2)) :: expectedResults out n := by
  simp only [expectedResults, List.map_cons, List.cons_append, List.take_succ_cons]
  congr 1
  rw [List.take_append_eq_append_take, List.take_append_eq_append_take]
  congr 1
  rw [List.take_replicate, List.take_replicate]
  congr 1
  omega

/-- The state `iteratorFinalize` leaves for an iterator that still had its cursor. -/
theorem iteratorFinalize_of_cursor (w : World) (i : Nat) (ni : NativeIterator) (c : Cursor)
    (h : w.heap[i]? = some ni) (hf : ni.is_finalized = false) (hit : ni.iterator = some c) :
    (iteratorFinalize w i).heap[i]? = some { ni with is_finalized := true, iterator := none } ∧
      (iteratorFinalize w i).native_db.is_closed = w.native_db.is_closed ∧
      (iteratorFinalize w i).native_db.db = w.native_db.db ∧
      (iteratorFinalize w i).native_db.is_finalized = w.native_db.is_finalized := by
  simp only [iteratorFinalize, h, hf, hit]
  exact ⟨getElem?_set_same h, rfl, rfl, rfl⟩

/-- Successive calls on a started iterator: the entries of `scanOut`, then end for ever; the
iterator is finalized from the first end on, and its count is the number of emitted pairs. -/
theorem syncNextN_running (i : Nat) : ∀ (rest : Store) (n : Nat) (w : World)
    (ni : NativeIterator) (c : Cursor),
    w.heap[i]? = some ni → ni.is_finalized = false → ni.iterator = some c → c.rest = rest →
    w.native_db.is_closed = false →
    (w.native_db.db.isSome = true ∨ w.native_db.is_finalized = true) →
    (syncNextN w i n).1 = expectedResults (scanOut ni rest ni.count) n ∧
      ∃ ni', (syncNextN w i n).2.heap[i]? = some ni' ∧
        ni'.is_finalized = decide ((scanOut ni rest ni.count).length < n) ∧
        ni'.count = ni.count + min n (scanOut ni rest ni.count).length := by
  intro rest
  induction rest with
  | nil =>
    intro n w ni c h hf hit hrest hc hdb
    cases n with
    | zero => exact ⟨by simp [syncNextN, expectedResults_zero], ni, h, by simp [hf, scanOut], by simp⟩
    | succ n =>
      have hstep : syncNext w i = (.ok none, iteratorFinalize w i) := by
        simp [syncNext, syncNextEmit, h, hc, hit, hf, Cursor.current, hrest]
      obtain ⟨h1, h2, h3, h4⟩ := iteratorFinalize_of_cursor w i ni c h hf hit
      have := syncNextN_of_finalized i n (iteratorFinalize w i) _ h1 rfl (by rw [h2, hc])
        (by rw [h3, h4]; exact hdb)
      obtain ⟨r1, ni', r2, r3, r4⟩ := this
      simp only [syncNextN, hstep]
      refine ⟨?_, ni', r2, ?_, ?_⟩
      · rw [r1]; simp [scanOut, expectedResults_nil, List.replicate_succ]
      · simp [r3, scanOut]
      · simp [r4, scanOut]
  | cons e r ih =>
    intro n w ni c h hf hit hrest hc hdb
    cases n with
    | zero =>
      exact ⟨by simp [syncNextN, expectedResults_zero], ni, h, by simp [hf], by simp⟩
    | succ n =>
      obtain ⟨key, value⟩ := e
      by_cases hstop : (isQueryLimitReached ni key ||
          (decide (ni.limit ≥ 0) && decide (ni.count ≥ ni.limit))) = true
      · have hstep : syncNext w i = (.ok none, iteratorFinalize w i) := by
          have hstop' := hstop
          simp only [Bool.or_eq_true, Bool.and_eq_true, decide_eq_true_eq] at hstop'
          simp [syncNext, syncNextEmit, h, hc, hit, hf, Cursor.current, hrest, hstop']
        obtain ⟨h1, h2, h3, h4⟩ := iteratorFinalize_of_cursor w i ni c h hf hit
        have := syncNextN_of_finalized i n (iteratorFinalize w i) _ h1 rfl (by rw [h2, hc])
          (by rw [h3, h4]; exact hdb)
        obtain ⟨r1, ni', r2, r3, r4⟩ := this
        have hso : scanOut ni ((key, value) :: r) ni.count = [] := by
          simp only [scanOut]
          rw [if_pos hstop]
        rw [hso]
        simp only [syncNextN, hstep]
        refine ⟨?_, ni', r2, ?_, ?_⟩
        · rw [r1]; simp [expectedResults_nil, List.replicate_succ]
        · simp [r3]
        · simp [r4]
      · let ni1 : NativeIterator := { ni with count := ni.count + 1, iterator := some c.Next }
        let w1 : World := { w with heap := w.heap.set i ni1 }
        have hstep : syncNext w i = (.ok (some (encodePair key value)), w1) := by
          have hstop' := hstop
          simp only [Bool.or_eq_true, Bool.and_eq_true, decide_eq_true_eq] at hstop'
          simp [syncNext, syncNextEmit, h, hc, hit, hf, Cursor.current, hrest, hstop', w1, ni1]
        have hcong : scanOut ni1 r (ni.count + 1) = scanOut ni r (ni.count + 1) :=
          scanOut_congr ni ni1 rfl rfl rfl rfl r (ni.count + 1)
        obtain ⟨r1, ni', r2, r3, r4⟩ := ih n w1 ni1 c.Next (getElem?_set_same h) hf rfl
          (by simp [Cursor.Next, hrest]) hc hdb
        have hso : scanOut ni ((key, value) :: r) ni.count =
            (key, value) :: scanOut ni r (ni.count + 1) := by
          simp only [scanOut]
          rw [if_neg hstop]
        have hcnt1 : ni1.count = ni.count + 1 := rfl
        rw [hcnt1, hcong] at r1 r3 r4
        rw [hso]
        simp only [syncNextN, hstep, expectedResults_cons]
        refine ⟨by rw [r1], ni', r2, ?_, ?_⟩
        · rw [r3]; simp
        · rw [r4]
          simp only [List.length_cons]
          omega

/-- The first call on an iterator that has no cursor yet behaves as a call on the state in
which the cursor has been created, registered and positioned. -/
theorem syncNext_fresh (w : World) (i : Nat) (ni : NativeIterator) (es : Store)
    (h : w.heap[i]? = some ni) (hit : ni.iterator = none)
    (hc : w.native_db.is_closed = false) (hfin : w.native_db.is_finalized = false)
    (hdb : w.native_db.db = some es) :
    ∃ w1, syncNext w i = syncNext w1 i ∧
      w1.heap[i]? = some { ni with iterator := some (initialSeek ni (DB.NewIterator es)) } ∧
      w1.native_db.is_closed = false ∧ w1.native_db.db = some es := by
  let ni1 : NativeIterator := { ni with iterator := some (initialSeek ni (DB.NewIterator es)) }
  let w1 : World :=
    { native_db := { w.native_db with iterators := w.native_db.iterators ++ [i] }
      heap := w.heap.set i ni1
      trace := w.trace ++ [.NewIterator i ni.is_fill_cache] }
  have hcc : createCursor w i ni = some (w1, ni1) := by
    simp [createCursor, hdb, w1, ni1]
  have h1 : w1.heap[i]? = some ni1 := getElem?_set_same h
  refine ⟨w1, ?_, h1, hc, hdb⟩
  have hc1 : w1.native_db.is_closed = false := hc
  have hl : syncNext w i = syncNextEmit w1 i ni1 := by
    simp [syncNext, h, hc, hfin, hit, hcc]
  have hr : syncNext w1 i = syncNextEmit w1 i ni1 := by
    simp [syncNext, h1, hc1, hc, ni1]
  rw [hl, hr]

/-! ## Scans with any bounds -/

theorem effectiveBound_of_boundOK {b : Option Bytes} (h : boundOK b) : effectiveBound b = b := by
  cases b with
  | none => rfl
  | some l =>
    cases l with
    | nil => exact absurd rfl h
    | cons x xs => rfl

theorem effectiveArgs_of_boundOK (a : IteratorArgs) (hgt : boundOK a.gt) (hlt : boundOK a.lt) :
    effectiveArgs a = a := by
  simp [effectiveArgs, effectiveBound_of_boundOK hgt, effectiveBound_of_boundOK hlt]

theorem boundOK_effectiveBound (b : Option Bytes) : boundOK (effectiveBound b) := by
  cases b with
  | none => trivial
  | some l =>
    cases l with
    | nil => trivial
    | cons x xs => exact List.cons_ne_nil x xs

/-- The initial seek for any lower bound argument: the cursor is left on the stored entries
that satisfy the lower-bound condition of the bound the scan applies. -/
theorem initialSeek_any (a : IteratorArgs) (es : Store) (hs : Store.Ordered es) :
    initialSeek (newNativeIterator a) (DB.NewIterator es) =
      { snapshot := es, rest := es.filter (fun e => lowerOK (effectiveArgs a) e.1) } := by
  by_cases hz : a.gt = some []
  · simp [initialSeek, newNativeIterator, hz, Cursor.SeekToFirst, DB.NewIterator, lowerOK,
      effectiveArgs, effectiveBound]
  · have hgt : boundOK a.gt := by
      cases hg : a.gt with
      | none => trivial
      | some l =>
        intro hl
        exact hz (by rw [hg, hl])
    rw [initialSeek_new a es hs hgt]
    have : (fun e : Entry => lowerOK (effectiveArgs a) e.1) = (fun e : Entry => lowerOK a e.1) := by
      funext e
      simp [lowerOK, effectiveArgs, effectiveBound_of_boundOK hgt]
    rw [this]

/-- The upper-bound test for any upper bound argument, on an iterator made by `syncNew`. -/
theorem isQueryLimitReached_any (a : IteratorArgs) (ni : NativeIterator)
    (h1 : ni.lt = a.lt) (h2 : ni.lt_len = (newNativeIterator a).lt_len)
    (h3 : ni.is_lt_closed = a.is_lt_closed) (k : Bytes) :
    isQueryLimitReached ni k = !upperOK (effectiveArgs a) k := by
  by_cases hz : a.lt = some []
  · simp [isQueryLimitReached, h2, newNativeIterator, hz, upperOK, effectiveArgs, effectiveBound]
  · have hlt : boundOK a.lt := by
      cases hg : a.lt with
      | none => trivial
      | some l =>
        intro hl
        exact hz (by rw [hg, hl])
    rw [isQueryLimitReached_new a hlt ni h1 h2 h3]
    simp [upperOK, effectiveArgs, effectiveBound_of_boundOK hlt]

theorem scanOut_any (a : IteratorArgs) (es : Store) (hs : Store.Ordered es)
    (ni : NativeIterator) (h1 : ni.lt = a.lt)
    (h2 : ni.lt_len = (newNativeIterator a).lt_len) (h3 : ni.is_lt_closed = a.is_lt_closed)
    (h4 : ni.limit = a.limit) :
    scanOut ni (es.filter (fun e => lowerOK (effectiveArgs a) e.1)) 0 =
      limited a.limit (matching (effectiveArgs a) es) := by
  have hq : (fun e : Entry => !isQueryLimitReached ni e.1) =
      (fun e : Entry => upperOK (effectiveArgs a) e.1) := by
    funext e
    rw [isQueryLimitReached_any a ni h1 h2 h3, Bool.not_not]
  by_cases hl : a.limit < 0
  · rw [scanOut_unlimited ni (by rw [h4]; exact hl), hq, takeWhile_upperOK _ es hs]
    simp [limited, hl]
  · rw [scanOut_limited ni (by rw [h4]; omega) _ 0 (by rw [h4]; omega), hq,
      takeWhile_upperOK _ es hs, h4]
    simp [limited, hl]

/-- The complete scan for any bound arguments: as `scan_new`, with each bound replaced by the
bound the scan applies. -/
theorem scan_any (w : World) (a : IteratorArgs) (es : Store) (n : Nat)
    (hdb : w.native_db.db = some es) (hc : w.native_db.is_closed = false)
    (hfin : w.native_db.is_finalized = false) (hs : Store.Ordered es) :
    (syncNextN (syncNew w a).2 w.heap.length n).1 =
        expectedResults (limited a.limit (matching (effectiveArgs a) es)) n ∧
      ∃ ni', (syncNextN (syncNew w a).2 w.heap.length n).2.heap[w.heap.length]? = some ni' ∧
        ni'.is_finalized = decide ((limited a.limit (matching (effectiveArgs a) es)).length < n) ∧
        ni'.count = min n (limited a.limit (matching (effectiveArgs a) es)).length := by
  have hnew : syncNew w a = (.ok (), { w with heap := w.heap ++ [newNativeIterator a] }) := by
    simp [syncNew, hc]
  rw [hnew]
  simp only
  generalize hw0 : ({ w with heap := w.heap ++ [newNativeIterator a] } : World) = w0
  have h0 : w0.heap[w.heap.length]? = some (newNativeIterator a) := by
    rw [← hw0]; simp
  have hc0 : w0.native_db.is_closed = false := by rw [← hw0]; exact hc
  have hfin0 : w0.native_db.is_finalized = false := by rw [← hw0]; exact hfin
  have hdb0 : w0.native_db.db = some es := by rw [← hw0]; exact hdb
  cases n with
  | zero =>
    refine ⟨by simp [syncNextN, expectedResults_zero], newNativeIterator a, h0, ?_, ?_⟩
    · simp [newNativeIterator]
    · simp [newNativeIterator]
  | succ n =>
    obtain ⟨w1, e1, h1, hc1, hdb1⟩ :=
      syncNext_fresh w0 w.heap.length (newNativeIterator a) es h0 rfl hc0 hfin0 hdb0
    have hN : syncNextN w0 w.heap.length (n + 1) = syncNextN w1 w.heap.length (n + 1) := by
      simp only [syncNextN, e1]
    rw [hN]
    generalize hni1 : ({ newNativeIterator a with
      iterator := some (initialSeek (newNativeIterator a) (DB.NewIterator es)) } :
      NativeIterator) = ni1 at h1
    have p1 : ni1.is_finalized = false := by rw [← hni1]; rfl
    have p2 : ni1.iterator = some (initialSeek (newNativeIterator a) (DB.NewIterator es)) := by
      rw [← hni1]
    have p3 : ni1.count = 0 := by rw [← hni1]; rfl
    have p4 : ni1.lt = a.lt := by rw [← hni1]; rfl
    have p5 : ni1.lt_len = (newNativeIterator a).lt_len := by rw [← hni1]
    have p6 : ni1.is_lt_closed = a.is_lt_closed := by rw [← hni1]; rfl
    have p7 : ni1.limit = a.limit := by rw [← hni1]; rfl
    have hrun := syncNextN_running w.heap.length
      (es.filter (fun e => lowerOK (effectiveArgs a) e.1)) (n + 1) w1
      ni1 _ h1 p1 p2 (by rw [initialSeek_any a es hs]) hc1 (Or.inl (by rw [hdb1]; rfl))
    rw [p3, scanOut_any a es hs ni1 p4 p5 p6 p7] at hrun
    obtain ⟨r1, ni', r2, r3, r4⟩ := hrun
    refine ⟨r1, ni', r2, r3, ?_⟩
    rw [r4]
    simp

/-- The complete scan for bounds that are absent or non-empty: on an open database with
ordered content, the calls of `syncNext` on an iterator just made by `syncNew` return the
specified entries, encoded, in order, and then end for ever.  The iterator is finalized from
the first end on and has counted the emitted pairs. -/
theorem scan_new (w : World) (a : IteratorArgs) (es : Store) (n : Nat)
    (hdb : w.native_db.db = some es) (hc : w.native_db.is_closed = false)
    (hfin : w.native_db.is_finalized = false) (hs : Store.Ordered es)
    (hgt : boundOK a.gt) (hlt : boundOK a.lt) :
    (syncNextN (syncNew w a).2 w.heap.length n).1 =
        expectedResults (limited a.limit (matching a es)) n ∧
      ∃ ni', (syncNextN (syncNew w a).2 w.heap.length n).2.heap[w.heap.length]? = some ni' ∧
        ni'.is_finalized = decide ((limited a.limit (matching a es)).length < n) ∧
        ni'.count = min n (limited a.limit (matching a es)).length := by
  have h := scan_any w a es n hdb hc hfin hs
  rw [effectiveArgs_of_boundOK a hgt hlt] at h
  exact h

/-! ## Pair encoding -/

theorem and_mask_clear_low2 (x : Nat) (h : x < 2 ^ 32) : x &&& 0xFFFFFFFC = x / 4 * 4 := by
  apply Nat.eq_of_testBit_eq
  intro i
  rw [Nat.testBit_and]
  have h1 : (0xFFFFFFFC : Nat) = 2 ^ 2 * (2 ^ 30 - 1) := by norm_num
  rw [h1, Nat.testBit_mul_pow_two, Nat.testBit_two_pow_sub_one]
  rw [show x / 4 * 4 = 2 ^ 2 * (x / 2 ^ 2) by omega, Nat.testBit_mul_pow_two,
    ← Nat.shiftRight_eq_div_pow, Nat.testBit_shiftRight]
  by_cases h2 : 2 ≤ i
  · have e : 2 + (i - 2) = i := by omega
    rw [e]
    by_cases h3 : i - 2 < 30
    · simp [h2, h3]
    · have : x.testBit i = false := by
        apply Nat.testBit_lt_two_pow
        calc x < 2 ^ 32 := h
          _ ≤ 2 ^ i := Nat.pow_le_pow_right (by norm_num) (by omega)
      simp [h2, h3, this]
  · simp [h2]

/-- Below the 32-bit wrap, `increaseToMultipleOf4` rounds up to the next multiple of 4. -/
theorem increaseToMultipleOf4_eq (v : Nat) (h : v + 3 < 2 ^ 32) :
    increaseToMultipleOf4 v = (v + 3) / 4 * 4 := by
  unfold increaseToMultipleOf4
  rw [Nat.mod_eq_of_lt h, and_mask_clear_low2 _ h]

theorem and_0xFF (x : Nat) : x &&& 0xFF = x % 256 :=
  Nat.and_pow_two_sub_one_eq_mod x 8

theorem shiftRight_8 (x : Nat) : x >>> 8 = x / 256 := by
  rw [Nat.shiftRight_eq_div_pow]

/-- The buffer of `encodePair`, written out: four header bytes holding the low 16 bits of the
key length and of the padded key length, the key, the zero padding, the value. -/
theorem encodePair_eq (key value : Bytes) (h : key.length + 3 < 2 ^ 32) :
    encodePair key value =
      [key.length % 256, key.length / 256 % 256,
        ((key.length + 3) / 4 * 4) % 256, ((key.length + 3) / 4 * 4) / 256 % 256] ++ key ++
      List.replicate ((key.length + 3) / 4 * 4 - key.length) 0 ++ value := by
  have hk : key.length % 2 ^ 32 = key.length := Nat.mod_eq_of_lt (by omega)
  unfold encodePair
  simp only [hk, increaseToMultipleOf4_eq _ h, and_0xFF, shiftRight_8]
  have hpk : key.length ≤ (key.length + 3) / 4 * 4 := by omega
  generalize (key.length + 3) / 4 * 4 = p at hpk ⊢
  have hrep : List.replicate (p + value.length + 4) 0 =
      0 :: 0 :: 0 :: 0 :: List.replicate (p + value.length) 0 := by
    simp [List.replicate_succ]
  rw [hrep]
  simp only [List.set_cons_zero, List.set_cons_succ, memcpy]
  have e1 : List.take 4 (key.length % 256 :: key.length / 256 % 256 :: p % 256 :: p / 256 % 256 ::
      List.replicate (p + value.length) 0) =
      [key.length % 256, key.length / 256 % 256, p % 256, p / 256 % 256] := by
    simp
  have e2 : List.drop (4 + key.length) (key.length % 256 :: key.length / 256 % 256 :: p % 256 ::
      p / 256 % 256 :: List.replicate (p + value.length) 0) =
      List.replicate (p - key.length) 0 ++ List.replicate value.length 0 := by
    rw [show 4 + key.length = key.length + 4 by omega]
    simp only [List.drop_succ_cons, List.drop_replicate, List.append_replicate_replicate]
    congr 1
    omega
  rw [e1, e2]
  set hdr := [key.length % 256, key.length / 256 % 256, p % 256, p / 256 % 256] with hhdr
  have hl : (hdr ++ key ++ List.replicate (p - key.length) 0).length = 4 + p := by
    simp [hhdr]; omega
  have e3 : hdr ++ key ++ (List.replicate (p - key.length) 0 ++ List.replicate value.length 0) =
      (hdr ++ key ++ List.replicate (p - key.length) 0) ++ List.replicate value.length 0 := by
    simp
  rw [e3, ← hl, List.take_left, ← List.drop_drop, List.drop_left]
  simp

/-- For keys of at most 65532 bytes the buffer of `encodePair` has the stated layout. -/
theorem encodePair_statedLayout (key value : Bytes) (h : key.length ≤ 65532) :
    statedLayout key value (encodePair key value) := by
  rw [encodePair_eq key value (by omega)]
  have hpk : key.length ≤ (key.length + 3) / 4 * 4 := by omega
  have hp : (key.length + 3) / 4 * 4 ≤ 65532 := by omega
  unfold statedLayout
  simp only
  generalize (key.length + 3) / 4 * 4 = p at hpk hp ⊢
  refine ⟨?_, ?_, ?_, ?_, ?_, ?_, ?_, ?_, ?_, ?_⟩
  · simp; omega
  · simp; omega
  · simp; omega
  · simp; omega
  · simp; omega
  · simp; omega
  · simp; omega
  · simp
  · simp only [List.append_assoc, List.cons_append, List.nil_append]
    rw [show 4 + key.length = key.length + 4 by omega]
    simp only [List.drop_succ_cons, List.drop_left]
    rw [List.take_left' (by simp)]
  · have hl : ([key.length % 256, key.length / 256 % 256, p % 256, p / 256 % 256] ++ key ++
        List.replicate (p - key.length) 0).length = 4 + p := by
      simp; omega
    rw [List.drop_left' hl]

/-- What an emitting call of the second part of `syncNext` returns: the encoding of the entry
under the cursor, which then moves on. -/
theorem syncNextEmit_some (w : World) (i : Nat) (ni : NativeIterator) (buf : Bytes) (w' : World)
    (h : w.heap[i]? = some ni) (hemit : syncNextEmit w i ni = (.ok (some buf), w')) :
    ∃ (c : Cursor) (key value : Bytes), c.current = some (key, value) ∧
      (w'.heap[i]?).bind (fun x => x.iterator) = some c.Next ∧ buf = encodePair key value := by
  cases hf : ni.is_finalized with
  | true => simp [syncNextEmit, hf] at hemit
  | false =>
    cases hit : ni.iterator with
    | none => simp [syncNextEmit, hf, hit] at hemit
    | some it =>
      cases hcur : it.current with
      | none => simp [syncNextEmit, hf, hit, hcur] at hemit
      | some e =>
        obtain ⟨key, value⟩ := e
        by_cases hstop : (isQueryLimitReached ni key ||
            (decide (ni.limit ≥ 0) && decide (ni.count ≥ ni.limit))) = true
        · have hstop' := hstop
          simp only [Bool.or_eq_true, Bool.and_eq_true, decide_eq_true_eq] at hstop'
          simp [syncNextEmit, hf, hit, hcur, hstop'] at hemit
        · have hstop' := hstop
          simp only [Bool.or_eq_true, Bool.and_eq_true, decide_eq_true_eq] at hstop'
          simp only [syncNextEmit, hf, hit, hcur] at hemit
          simp [hstop'] at hemit
          refine ⟨it, key, value, hcur, ?_, hemit.1.symm⟩
          rw [← hemit.2]
          simp only
          rw [getElem?_set_same h]
          rfl

/-- Every buffer returned by `syncNext` is the encoding of the entry under the cursor. -/
theorem syncNext_some (w : World) (i : Nat) (buf : Bytes) (w' : World)
    (hemit : syncNext w i = (.ok (some buf), w')) :
    ∃ (c : Cursor) (key value : Bytes), c.current = some (key, value) ∧
      (w'.heap[i]?).bind (fun x => x.iterator) = some c.Next ∧ buf = encodePair key value := by
  cases h : w.heap[i]? with
  | none => simp [syncNext, h] at hemit
  | some ni =>
    cases hc : w.native_db.is_closed with
    | true => simp [syncNext, h, hc, throwClosedException] at hemit
    | false =>
      by_cases hcreate : (!w.native_db.is_finalized && ni.iterator.isNone) = true
      · cases hdb : w.native_db.db with
        | none => simp [syncNext, h, hc, hcreate, createCursor, hdb] at hemit
        | some store =>
          simp only [syncNext, h, hc, hcreate, createCursor, hdb] at hemit
          simp only [Bool.false_eq_true, if_false, if_true] at hemit
          exact syncNextEmit_some _ i _ buf w' (getElem?_set_same h) hemit
      · simp only [syncNext, h, hc, hcreate] at hemit
        simp only [Bool.false_eq_true, if_false] at hemit
        exact syncNextEmit_some w i ni buf w' h hemit

theorem not_statedLayout_of_length (key : Bytes) (h : key.length = 65536) :
    ¬ statedLayout key [] (encodePair key []) := by
  intro hl
  have h4 := hl.2.2.2.1
  rw [encodePair_eq key [] (by rw [h]; norm_num)] at h4
  simp [h] at h4

/-! ## Range scan, limit and pair encoding -/

/-- C1 (range scan result).  On an open database whose engine holds the entries `es` in
ascending key order, take an iterator made by `syncNew` with a lower and an upper bound that are
each absent or non-empty, any inclusive/exclusive flags, and a negative limit.  Then `n`
successive calls of `syncNext` return, encoded and in order, the entries of `matching a es` and
after them end on every call.  The entries of `matching a es` are in ascending
byte-lexicographic key order (so each occurs once) and are exactly the stored entries whose key
satisfies the lower-bound and the upper-bound condition; `Slice.compare` is the
byte-lexicographic order.  For the keys `a` to `e` with lower bound `b` exclusive and upper
bound `d` inclusive they are the entries of `c` and `d`. -/
theorem range_scan_result (w : World) (a : IteratorArgs) (es : Store) (n : Nat)
    (hdb : w.native_db.db = some es) (hc : w.native_db.is_closed = false)
    (hfin : w.native_db.is_finalized = false) (hs : Store.Ordered es)
    (hgt : boundOK a.gt) (hlt : boundOK a.lt) (hlim : a.limit < 0) :
    (syncNextN (syncNew w a).2 w.heap.length n).1 = expectedResults (matching a es) n ∧
      (matching a es).Pairwise
        (fun e1 e2 => List.Lex (fun x y : Nat => x < y) e1.1 e2.1) ∧
      (∀ e, e ∈ matching a es ↔ e ∈ es ∧ lowerOK a e.1 = true ∧ upperOK a e.1 = true) ∧
      (∀ k l : Bytes, (Slice.compare k l < 0 ↔ List.Lex (fun x y : Nat => x < y) k l) ∧
        (0 < Slice.compare k l ↔ List.Lex (fun x y : Nat => x < y) l k) ∧
        (Slice.compare k l = 0 ↔ k = l)) ∧
      matching exampleBounds exampleStore = [([99], [3]), ([100], [4])] := by
  refine ⟨?_, ?_, ?_, ?_, by decide⟩
  · have h := (scan_new w a es n hdb hc hfin hs hgt hlt).1
    rw [h]
    simp [limited, hlim]
  · have h1 : Store.Ordered (matching a es) := hs.filter _
    exact List.Pairwise.imp (fun {x y} h => (Slice.compare_lt_iff_lex x.1 y.1).1 h) h1
  · intro e
    simp [matching, List.mem_filter]
  · intro k l
    exact ⟨Slice.compare_lt_iff_lex k l,
      by rw [Slice.compare_pos_iff]; exact Slice.compare_lt_iff_lex l k,
      Slice.compare_eq_zero_iff k l⟩

/-- C1 at the bound example: three calls on the store with the keys `a` to `e` return the
pairs of `c` and `d` and then end. -/
theorem range_scan_result_witness :
    (syncNextN (syncNew exampleWorld exampleBounds).2 0 3).1 =
      [.ok (some [1, 0, 4, 0, 99, 0, 0, 0, 3]), .ok (some [1, 0, 4, 0, 100, 0, 0, 0, 4]),
        .ok none] :=
  (range_scan_result exampleWorld exampleBounds exampleStore 3 rfl rfl rfl
    (by unfold Store.Ordered; decide) (List.cons_ne_nil _ _) (List.cons_ne_nil _ _)
    (by decide)).1.trans (by decide)

/-- C3 as stated fails for a long key: for a key of 65536 bytes the header bytes 0..1 of the
buffer do not hold the key length. -/
theorem long_key_breaks_layout :
    ¬ statedLayout (List.replicate 65536 0) [] (encodePair (List.replicate 65536 0) []) :=
  not_statedLayout_of_length _ (List.length_replicate 65536 0)

/-! ## Closed gate and close -/

/-- C4 (closed gate).  On a database handle whose `is_closed` flag is set, each of `syncGet`,
`syncPut`, `syncDelete`, `syncNew` and `syncNext` (on any iterator handle of the heap) raises
`LevelClosedError` and returns the state it was given: the database handle, the live-iterator
list, every iterator and the trace of engine calls are unchanged, so no engine access was
made. -/
theorem closed_gate (w : World) (hclosed : w.native_db.is_closed = true) (key value : Bytes)
    (is_sync : Bool) (a : IteratorArgs) (i : Nat) (hi : i < w.heap.length) :
    syncGet w key = (.error .LevelClosedError, w) ∧
      syncPut w key value is_sync = (.error .LevelClosedError, w) ∧
      syncDelete w key = (.error .LevelClosedError, w) ∧
      syncNew w a = (.error .LevelClosedError, w) ∧
      syncNext w i = (.error .LevelClosedError, w) := by
  refine ⟨?_, ?_, ?_, ?_, ?_⟩
  · simp [syncGet, hclosed, throwClosedException]
  · simp [syncPut, hclosed, throwClosedException]
  · simp [syncDelete, hclosed, throwClosedException]
  · simp [syncNew, hclosed, throwClosedException]
  · have hsome : w.heap[i]? = some w.heap[i] := List.getElem?_eq_getElem hi
    simp [syncNext, hsome, hclosed, throwClosedException]

/-- C4 on the example database after an iterator was made and a close was requested. -/
theorem closed_gate_witness :
    syncGet (dbClose (syncNew exampleWorld exampleBounds).2 7) [97] =
        (.error .LevelClosedError, dbClose (syncNew exampleWorld exampleBounds).2 7) ∧
      syncPut (dbClose (syncNew exampleWorld exampleBounds).2 7) [97] [1] true =
        (.error .LevelClosedError, dbClose (syncNew exampleWorld exampleBounds).2 7) ∧
      syncDelete (dbClose (syncNew exampleWorld exampleBounds).2 7) [97] =
        (.error .LevelClosedError, dbClose (syncNew exampleWorld exampleBounds).2 7) ∧
      syncNew (dbClose (syncNew exampleWorld exampleBounds).2 7) exampleLimit =
        (.error .LevelClosedError, dbClose (syncNew exampleWorld exampleBounds).2 7) ∧
      syncNext (dbClose (syncNew exampleWorld exampleBounds).2 7) 0 =
        (.error .LevelClosedError, dbClose (syncNew exampleWorld exampleBounds).2 7) :=
  closed_gate (dbClose (syncNew exampleWorld exampleBounds).2 7) (by decide) [97] [1] true
    exampleLimit 0 (by decide)

theorem dbClose_of_closed (w : World) (port : Nat) (h : w.native_db.is_closed = true) :
    dbClose w port = w.emit [.Dart_PostInteger port (-1)] := by
  simp [dbClose, h]

theorem foldl_dbClose_of_closed : ∀ (ports : List Nat) (w : World),
    w.native_db.is_closed = true →
    (ports.foldl dbClose w).native_db = w.native_db ∧ (ports.foldl dbClose w).heap = w.heap ∧
      (ports.foldl dbClose w).trace =
        w.trace ++ ports.map (fun p => Event.Dart_PostInteger p (-1))
  | [], w, _ => by simp
  | p :: ports, w, h => by
    have h1 := dbClose_of_closed w p h
    have ih := foldl_dbClose_of_closed ports (dbClose w p) (by rw [h1]; exact h)
    simp only [List.foldl_cons, List.map_cons]
    rw [ih.1, ih.2.1, ih.2.2, h1]
    simp [World.emit]

/-- C5 (close and double close).  `dbClose` on a handle that is not closed sets `is_closed`,
appends exactly one close command (carrying the reply port) at the tail of the queue, changes
nothing else and posts no reply.  `dbClose` on a handle that is already closed posts the reply
`-1` and leaves the handle (queue included) and the iterators unchanged.  Hence a sequence of
close calls on a handle that was not closed enqueues exactly one close command, that of the
first call, and answers every later call with `-1`; on a handle that was closed it enqueues
none. -/
theorem close_and_double_close (w : World) (port : Nat) (ports : List Nat) :
    (w.native_db.is_closed = false →
      (dbClose w port).native_db =
          { w.native_db with
            is_closed := true
            messages := w.native_db.messages ++ [{ port_id := port, cmd := MESSAGE_CLOSE }] } ∧
        (dbClose w port).heap = w.heap ∧ (dbClose w port).trace = w.trace) ∧
      (w.native_db.is_closed = true →
        (dbClose w port).native_db = w.native_db ∧ (dbClose w port).heap = w.heap ∧
        (dbClose w port).trace = w.trace ++ [.Dart_PostInteger port (-1)]) ∧
      (w.native_db.is_closed = false →
        ((port :: ports).foldl dbClose w).native_db =
          { w.native_db with
            is_closed := true
            messages := w.native_db.messages ++ [{ port_id := port, cmd := MESSAGE_CLOSE }] } ∧
        ((port :: ports).foldl dbClose w).trace =
          w.trace ++ ports.map (fun p => Event.Dart_PostInteger p (-1))) ∧
      (w.native_db.is_closed = true →
        ((port :: ports).foldl dbClose w).native_db = w.native_db) := by
  have hopen : w.native_db.is_closed = false →
      dbClose w port =
        { w with native_db := { w.native_db with
            is_closed := true
            messages := w.native_db.messages ++ [{ port_id := port, cmd := MESSAGE_CLOSE }] } } := by
    intro h
    simp [dbClose, h, dbAddMessage]
  refine ⟨?_, ?_, ?_, ?_⟩
  · intro h
    rw [hopen h]
    exact ⟨rfl, rfl, rfl⟩
  · intro h
    rw [dbClose_of_closed w port h]
    exact ⟨rfl, rfl, rfl⟩
  · intro h
    have ih := foldl_dbClose_of_closed ports (dbClose w port) (by rw [hopen h])
    simp only [List.foldl_cons]
    rw [ih.1, ih.2.2, hopen h]
    exact ⟨rfl, rfl⟩
  · intro h
    exact (foldl_dbClose_of_closed (port :: ports) w h).1

/-- C5 on the example database: the first close enqueues its command and posts nothing, the
second close posts `-1` and enqueues nothing. -/
theorem close_and_double_close_witness :
    ((dbClose exampleWorld 7).native_db.messages = [{ port_id := 7, cmd := MESSAGE_CLOSE }] ∧
      (dbClose exampleWorld 7).trace = []) ∧
      ([7, 8].foldl dbClose exampleWorld).native_db.messages =
        [{ port_id := 7, cmd := MESSAGE_CLOSE }] ∧
      ([7, 8].foldl dbClose exampleWorld).trace = [.Dart_PostInteger 8 (-1)] :=
  ⟨⟨by rw [((close_and_double_close exampleWorld 7 []).1 rfl).1]; rfl,
      ((close_and_double_close exampleWorld 7 []).1 rfl).2.2⟩,
    by rw [((close_and_double_close exampleWorld 7 [8]).2.2.1 rfl).1]; rfl,
    ((close_and_double_close exampleWorld 7 [8]).2.2.1 rfl).2⟩

/-! ## Finalizers -/

theorem liveSetOK_iff (w : World) : liveSetOK w = true ↔
    w.native_db.iterators.Nodup ∧ ∀ j ∈ w.native_db.iterators, ∃ it, w.heap[j]? = some it ∧
      it.is_finalized = false ∧ it.iterator.isSome = true := by
  unfold liveSetOK
  simp only [Bool.and_eq_true, decide_eq_true_eq, List.all_eq_true]
  constructor
  · rintro ⟨h1, h2⟩
    refine ⟨h1, fun j hj => ?_⟩
    have := h2 j hj
    cases hh : w.heap[j]? with
    | none => simp [hh] at this
    | some it =>
      simp only [hh, Bool.and_eq_true, Bool.not_eq_true'] at this
      exact ⟨it, rfl, this.1, this.2⟩
  · rintro ⟨h1, h2⟩
    refine ⟨h1, fun j hj => ?_⟩
    obtain ⟨it, e1, e2, e3⟩ := h2 j hj
    simp [e1, e2, e3]

/-- The state `iteratorFinalize` leaves for the front of a well-formed live-iterator list. -/
theorem iteratorFinalize_front (w : World) (i : Nat) (t : List Nat) (it : NativeIterator)
    (hl : w.native_db.iterators = i :: t) (hnd : (i :: t).Nodup)
    (h : w.heap[i]? = some it) (hf : it.is_finalized = false) (hc : it.iterator.isSome = true) :
    iteratorFinalize w i =
      { native_db := { w.native_db with iterators := t }
        heap := w.heap.set i { it with is_finalized := true, iterator := none }
        trace := w.trace ++ [.delete_cursor i, .delete_bounds i] } := by
  obtain ⟨c, hc'⟩ := Option.isSome_iff_exists.1 hc
  have hfilter : (i :: t).filter (fun j => j != i) = t := by
    have hni : i ∉ t := (List.nodup_cons.1 hnd).1
    rw [List.filter_cons_of_neg (by simp), List.filter_eq_self]
    intro j hj
    have : j ≠ i := fun e => hni (e ▸ hj)
    simpa using this
  simp only [iteratorFinalize, h, hf, hc', hl, hfilter]
  rfl

/-- The loop of `finalizeDB` on a well-formed live-iterator list ends after one round per
member, with enough fuel for them: the list is empty, the members are finalized with their
cursor released, in list order, and nothing else has changed. -/
theorem finalizeLoop_of_liveSetOK : ∀ (l : List Nat) (fuel : Nat) (w : World),
    w.native_db.iterators = l → liveSetOK w = true → l.length ≤ fuel →
    ∃ w', finalizeLoop fuel w = some w' ∧
      w'.native_db = { w.native_db with iterators := [] } ∧
      w'.trace = w.trace ++ cascadeEvents l ∧
      w'.heap.length = w.heap.length ∧
      (∀ j ∈ l, ∃ it, w.heap[j]? = some it ∧
        w'.heap[j]? = some { it with is_finalized := true, iterator := none }) ∧
      (∀ j, j ∉ l → w'.heap[j]? = w.heap[j]?)
  | [], fuel, w, hl, _, _ => by
    refine ⟨w, ?_, ?_, by simp [cascadeEvents], rfl, by simp, fun _ _ => rfl⟩
    · unfold finalizeLoop
      simp [hl]
    · rw [← hl]
  | i :: t, fuel, w, hl, hok, hfuel => by
    obtain ⟨hnd, hmem⟩ := (liveSetOK_iff w).1 hok
    rw [hl] at hnd hmem
    obtain ⟨it, h, hf, hc⟩ := hmem i (by simp)
    have hstep := iteratorFinalize_front w i t it hl hnd h hf hc
    have hni : i ∉ t := (List.nodup_cons.1 hnd).1
    cases fuel with
    | zero => simp at hfuel
    | succ fuel =>
      have hok1 : liveSetOK (iteratorFinalize w i) = true := by
        rw [liveSetOK_iff, hstep]
        refine ⟨(List.nodup_cons.1 hnd).2, fun j hj => ?_⟩
        obtain ⟨itj, e1, e2, e3⟩ := hmem j (by simp [hj])
        refine ⟨itj, ?_, e2, e3⟩
        have : i ≠ j := fun e => hni (e ▸ hj)
        simp only
        rw [List.getElem?_set_ne this]
        exact e1
      obtain ⟨w', r1, r2, r3, r4, r5, r6⟩ :=
        finalizeLoop_of_liveSetOK t fuel (iteratorFinalize w i) (by rw [hstep]) hok1
          (by simpa using hfuel)
      refine ⟨w', ?_, ?_, ?_, ?_, ?_, ?_⟩
      · rw [finalizeLoop]
        simp only [hl]
        exact r1
      · rw [r2, hstep]
      · rw [r3, hstep]
        simp [cascadeEvents, List.flatMap_cons]
      · rw [r4, hstep]
        simp
      · intro j hj
        rcases List.mem_cons.1 hj with e | hjt
        · subst e
          refine ⟨it, h, ?_⟩
          rw [r6 j hni, hstep]
          exact getElem?_set_same h
        · obtain ⟨itj, e1, e2⟩ := r5 j hjt
          have : i ≠ j := fun e => hni (e ▸ hjt)
          rw [hstep] at e1
          simp only at e1
          rw [List.getElem?_set_ne this] at e1
          exact ⟨itj, e1, e2⟩
      · intro j hj
        have hj1 : j ∉ t := fun e => hj (List.mem_cons_of_mem _ e)
        have hj2 : i ≠ j := fun e => hj (by simp [e])
        rw [r6 j hj1, hstep]
        simp only
        rw [List.getElem?_set_ne hj2]

/-- Cascade teardown on a well-formed live-iterator list: `finalizeDB` returns (with fuel for
one round per member), the database is finalized with its path, list and engine handle
released, the list is empty, every former member is finalized with its cursor released, and
the engine handle is released last. -/
theorem finalizeDB_of_liveSetOK (fuel : Nat) (w : World)
    (hfin : w.native_db.is_finalized = false) (hok : liveSetOK w = true)
    (hfuel : w.native_db.iterators.length ≤ fuel) :
    ∃ w', finalizeDB fuel w = some w' ∧
      w'.native_db = { w.native_db with
        is_finalized := true, path := none, iterators := [], db := none } ∧
      w'.trace = w.trace ++ [.delete_path] ++ cascadeEvents w.native_db.iterators ++
        [.delete_iterators, .delete_db] ∧
      w'.heap.length = w.heap.length ∧
      (∀ j ∈ w.native_db.iterators, ∃ it, w.heap[j]? = some it ∧
        w'.heap[j]? = some { it with is_finalized := true, iterator := none }) ∧
      (∀ j, j ∉ w.native_db.iterators → w'.heap[j]? = w.heap[j]?) := by
  let w1 : World :=
    { w with native_db := { w.native_db with is_finalized := true, path := none }
             trace := w.trace ++ [.delete_path] }
  have hok1 : liveSetOK w1 = true := hok
  obtain ⟨w2, r1, r2, r3, r4, r5, r6⟩ :=
    finalizeLoop_of_liveSetOK w.native_db.iterators fuel w1 rfl hok1 hfuel
  refine ⟨{ w2 with native_db := { w2.native_db with db := none }
                    trace := w2.trace ++ [.delete_iterators, .delete_db] }, ?_, ?_, ?_, r4, r5, r6⟩
  · simp only [finalizeDB, hfin, Bool.false_eq_true, if_false]
    have : finalizeLoop fuel w1 = some w2 := r1
    rw [this]
  · simp only [r2, w1]
  · simp only [r3, w1]

/-- A second `finalizeDB` returns at once, whatever the fuel, and changes nothing. -/
theorem finalizeDB_of_finalized (fuel : Nat) (w : World)
    (hfin : w.native_db.is_finalized = true) : finalizeDB fuel w = some w := by
  simp [finalizeDB, hfin]

/-- Whenever `finalizeDB` returns, the database is marked finalized. -/
theorem finalizeDB_is_finalized (fuel : Nat) (w w' : World) (h : finalizeDB fuel w = some w') :
    w'.native_db.is_finalized = true := by
  cases hfin : w.native_db.is_finalized with
  | true =>
    rw [finalizeDB_of_finalized fuel w hfin] at h
    cases h
    exact hfin
  | false =>
    simp only [finalizeDB, hfin, Bool.false_eq_true, if_false] at h
    cases hloop : finalizeLoop fuel
        { w with native_db := { w.native_db with is_finalized := true, path := none }
                 trace := w.trace ++ [.delete_path] } with
    | none => rw [hloop] at h; cases h
    | some w2 =>
      rw [hloop] at h
      simp only [Option.some.injEq] at h
      have hinv : ∀ (fuel : Nat) (u u' : World), finalizeLoop fuel u = some u' →
          u.native_db.is_finalized = true → u'.native_db.is_finalized = true := by
        intro fuel
        induction fuel with
        | zero =>
          intro u u' hu hf
          unfold finalizeLoop at hu
          cases hl : u.native_db.iterators with
          | nil => simp [hl] at hu; rw [← hu]; exact hf
          | cons a t => simp [hl] at hu
        | succ n ih =>
          intro u u' hu hf
          unfold finalizeLoop at hu
          cases hl : u.native_db.iterators with
          | nil => simp [hl] at hu; rw [← hu]; exact hf
          | cons a t =>
            simp only [hl] at hu
            refine ih _ u' hu ?_
            unfold iteratorFinalize
            cases u.heap[a]? with
            | none => exact hf
            | some it =>
              simp only
              cases it.is_finalized with
              | true => exact hf
              | false =>
                simp only [Bool.false_eq_true, if_false]
                cases it.iterator <;> exact hf
      rw [← h]
      exact hinv fuel _ w2 hloop rfl

theorem iteratorFinalize_idem (w : World) (i : Nat) :
    iteratorFinalize (iteratorFinalize w i) i = iteratorFinalize w i := by
  cases h : w.heap[i]? with
  | none => simp [iteratorFinalize, h]
  | some it =>
    cases hf : it.is_finalized with
    | true => simp [iteratorFinalize, h, hf]
    | false =>
      cases hit : it.iterator with
      | none =>
        have h1 : iteratorFinalize w i =
            { w with heap := w.heap.set i { it with is_finalized := true }
                     trace := w.trace ++ [.delete_bounds i] } := by
          simp [iteratorFinalize, h, hf, hit]
        rw [h1]
        exact iteratorFinalize_of_finalized _ i _ (getElem?_set_same h) rfl
      | some c =>
        have h1 : iteratorFinalize w i =
            { native_db := { w.native_db with
                             iterators := w.native_db.iterators.filter (fun j => j != i) }
              heap := w.heap.set i { it with is_finalized := true, iterator := none }
              trace := w.trace ++ [.delete_cursor i, .delete_bounds i] } := by
          simp [iteratorFinalize, h, hf, hit]
        rw [h1]
        exact iteratorFinalize_of_finalized _ i _ (getElem?_set_same h) rfl

/-! ## Worker loop -/

theorem processMessageOpen_eq (E : EngineOpen) (w : World) (m : Message) :
    processMessageOpen E w m =
      { w with
        native_db := { w.native_db with
          db := (E w.native_db.create_if_missing w.native_db.error_if_exists
            w.native_db.block_size w.native_db.path).2 }
        trace := w.trace ++ openEvents E w m } := by
  unfold processMessageOpen openEvents
  simp only
  cases (maybeSendError m.port_id (E w.native_db.create_if_missing w.native_db.error_if_exists
      w.native_db.block_size w.native_db.path).1).2 with
  | true => simp [World.emit]
  | false => simp [World.emit]

theorem openEvents_congr (E : EngineOpen) (w w' : World) (m : Message)
    (h1 : w'.native_db.create_if_missing = w.native_db.create_if_missing)
    (h2 : w'.native_db.error_if_exists = w.native_db.error_if_exists)
    (h3 : w'.native_db.block_size = w.native_db.block_size)
    (h4 : w'.native_db.path = w.native_db.path) : openEvents E w' m = openEvents E w m := by
  simp [openEvents, h1, h2, h3, h4]

/-- The worker loop on a queue of open commands followed by a close command: the state `w1`
in which `finalizeDB` is entered has seen the open commands once each, in order, and holds the
commands behind the close untouched; the loop then exits with the close reply. -/
theorem processMessages_fifo (E : EngineOpen) (close : Message) (rest : List Message)
    (hclose : close.cmd = MESSAGE_CLOSE) : ∀ (ms : List Message) (fuel : Nat) (w : World),
    w.native_db.messages = ms ++ close :: rest → (∀ m ∈ ms, m.cmd = MESSAGE_OPEN) →
    ms.length + 1 ≤ fuel →
    ∃ w1, w1.heap = w.heap ∧ w1.native_db.iterators = w.native_db.iterators ∧
      w1.native_db.is_finalized = w.native_db.is_finalized ∧
      w1.native_db.messages = rest ∧
      w1.trace = w.trace ++ ms.flatMap (fun m => openEvents E w m ++ [.freeMessage m]) ∧
      processMessages E fuel w =
        (finalizeDB (fuel - ms.length - 1) w1).map (fun w2 =>
          WorkerResult.exited (w2.emit [.Dart_PostInteger close.port_id 0, .freeMessage close]))
  | [], fuel, w, hq, _, hfuel => by
    cases fuel with
    | zero => simp at hfuel
    | succ fuel =>
      refine ⟨{ w with native_db := { w.native_db with messages := rest } }, rfl, rfl, rfl, rfl,
        by simp, ?_⟩
      simp only [List.nil_append] at hq
      simp only [processMessages, hq, hclose, if_true, List.length_nil, Nat.sub_zero,
        Nat.add_sub_cancel]
      cases finalizeDB fuel { w with native_db := { w.native_db with messages := rest } } <;> rfl
  | m :: ms, fuel, w, hq, hopen, hfuel => by
    cases fuel with
    | zero => simp at hfuel
    | succ fuel =>
      have hm : m.cmd = MESSAGE_OPEN := hopen m (by simp)
      have hne : m.cmd ≠ MESSAGE_CLOSE := by rw [hm]; decide
      let w0 : World := { w with native_db := { w.native_db with messages := ms ++ close :: rest } }
      let wn : World := (processMessageOpen E w0 m).emit [.freeMessage m]
      have hwn : wn = { w with
          native_db := { w.native_db with
            messages := ms ++ close :: rest
            db := (E w.native_db.create_if_missing w.native_db.error_if_exists
              w.native_db.block_size w.native_db.path).2 }
          trace := w.trace ++ openEvents E w m ++ [.freeMessage m] } := by
        have hoe : openEvents E w0 m = openEvents E w m :=
          openEvents_congr E w w0 m rfl rfl rfl rfl
        show (processMessageOpen E w0 m).emit [.freeMessage m] = _
        rw [processMessageOpen_eq, hoe]
        rfl
      have hfm : (fun x : Message => openEvents E wn x ++ [Event.freeMessage x]) =
          (fun x : Message => openEvents E w x ++ [Event.freeMessage x]) := by
        funext x
        rw [openEvents_congr E w wn x (by rw [hwn]) (by rw [hwn]) (by rw [hwn]) (by rw [hwn])]
      obtain ⟨w1, r1, r2, r3, r4, r5, r6⟩ := processMessages_fifo E close rest hclose ms fuel wn
        (by rw [hwn]) (fun x hx => hopen x (by simp [hx])) (by simpa using hfuel)
      refine ⟨w1, ?_, ?_, ?_, r4, ?_, ?_⟩
      · rw [r1, hwn]
      · rw [r2, hwn]
      · rw [r3, hwn]
      · rw [r5, hfm, hwn]
        simp only [List.flatMap_cons, List.append_assoc]
      · have hq' : w.native_db.messages = m :: (ms ++ close :: rest) := by simpa using hq
        have e : fuel + 1 - (m :: ms).length - 1 = fuel - ms.length - 1 := by
          simp only [List.length_cons]; omega
        rw [e, ← r6]
        simp only [processMessages, hq', hne, if_false, processMessage, hm, if_true]
        rfl

/-- An open command is answered with exactly one reply, on its own port. -/
theorem replies_openEvents (E : EngineOpen) (w : World) (m : Message) :
    ∃ code, replies (openEvents E w m) = [(m.port_id, code)] := by
  unfold openEvents maybeSendError
  simp only
  cases (E w.native_db.create_if_missing w.native_db.error_if_exists w.native_db.block_size
    w.native_db.path).1 <;> simp [Status.IsNotFound, Status.IsIOError, Status.IsCorruption,
      Status.isOk, replies]

/-- The worker on a well-formed live-iterator list.  Let the queue hold the open commands
`ms`, then a close command, then any commands `rest`.  With fuel for its rounds the worker loop
`processMessages` exits, and its trace shows: the open commands processed once each in queue
order (engine open, one reply on the command's port, `freeMessage`), then the teardown of
`finalizeDB` (nothing if the database was finalized before), then the reply `0` on the close
command's port and its `freeMessage`, and nothing after.  The commands in `rest` are still in
the queue, unprocessed, and the database is finalized.  `dbAddMessage` appends at the tail of
the queue. -/
theorem fifo_command_processing (E : EngineOpen) (w : World) (ms rest : List Message)
    (close : Message) (fuel : Nat) (hq : w.native_db.messages = ms ++ close :: rest)
    (hopen : ∀ m ∈ ms, m.cmd = MESSAGE_OPEN) (hclose : close.cmd = MESSAGE_CLOSE)
    (hok : liveSetOK w = true) (hfuel : ms.length + 1 + w.native_db.iterators.length ≤ fuel) :
    (∃ w', processMessages E fuel w = some (.exited w') ∧
      w'.trace = w.trace ++ ms.flatMap (fun m => openEvents E w m ++ [.freeMessage m]) ++
        (if w.native_db.is_finalized then []
          else [.delete_path] ++ cascadeEvents w.native_db.iterators ++
            [.delete_iterators, .delete_db]) ++
        [.Dart_PostInteger close.port_id 0, .freeMessage close] ∧
      w'.native_db.messages = rest ∧ w'.native_db.is_finalized = true) ∧
      (∀ m, ∃ code, replies (openEvents E w m) = [(m.port_id, code)]) ∧
      (∀ m, (dbAddMessage w m).native_db.messages = w.native_db.messages ++ [m]) := by
  refine ⟨?_, replies_openEvents E w, fun m => rfl⟩
  obtain ⟨w1, r1, r2, r3, r4, r5, r6⟩ :=
    processMessages_fifo E close rest hclose ms fuel w hq hopen (by omega)
  have hok1 : liveSetOK w1 = true := by
    unfold liveSetOK at hok ⊢
    rw [r1, r2]
    exact hok
  cases hfin : w.native_db.is_finalized with
  | true =>
    have hfin1 : w1.native_db.is_finalized = true := by rw [r3, hfin]
    rw [finalizeDB_of_finalized _ w1 hfin1] at r6
    refine ⟨_, r6, ?_, r4, hfin1⟩
    simp [World.emit, r5]
  | false =>
    have hfin1 : w1.native_db.is_finalized = false := by rw [r3, hfin]
    obtain ⟨w2, f1, f2, f3, _, _, _⟩ :=
      finalizeDB_of_liveSetOK (fuel - ms.length - 1) w1 hfin1 hok1 (by rw [r2]; omega)
    rw [f1] at r6
    refine ⟨_, r6, ?_, ?_, ?_⟩
    · simp [World.emit, f3, r5, r2]
    · simp [World.emit, f2, r4]
    · simp [World.emit, f2]

/-- The worker on `exampleQueue`: the open command of port 1 and the close command of port 2 are
answered in that order, and the open command of port 3 behind the close stays in the queue. -/
theorem fifo_command_processing_example :
    ∃ w', processMessages exampleEngine 2 exampleQueue = some (.exited w') ∧
      replies w'.trace = [(1, 0), (2, 0)] ∧
      w'.native_db.messages = [{ port_id := 3, cmd := MESSAGE_OPEN }] := by
  obtain ⟨w', h1, h2, h3, _⟩ := (fifo_command_processing exampleEngine exampleQueue
    [{ port_id := 1, cmd := MESSAGE_OPEN }] [{ port_id := 3, cmd := MESSAGE_OPEN }]
    { port_id := 2, cmd := MESSAGE_CLOSE } 2 rfl (by decide) rfl (by decide) (by decide)).1
  exact ⟨w', h1, by rw [h2]; decide, h3⟩

/-- A finalized iterator at the front of the live-iterator list is never removed, so the loop
of `finalizeDB` uses up any fuel. -/
theorem finalizeLoop_stuck (i : Nat) (t : List Nat) (it : NativeIterator) :
    ∀ (fuel : Nat) (w : World), w.native_db.iterators = i :: t → w.heap[i]? = some it →
    it.is_finalized = true → finalizeLoop fuel w = none
  | 0, w, hl, _, _ => by
    unfold finalizeLoop
    simp [hl]
  | fuel + 1, w, hl, h, hf => by
    unfold finalizeLoop
    simp only [hl]
    rw [iteratorFinalize_of_finalized w i it h hf]
    exact finalizeLoop_stuck i t it fuel w hl h hf

/-- The state `reenteredWorld` lets `finalizeDB` run for ever: it is not finalized, its
live-iterator list holds the iterator 0, and that iterator is finalized. -/
theorem finalizeDB_stuck (fuel : Nat) (w : World) (h1 : w.native_db.iterators = [0])
    (h2 : w.heap = reenteredWorld.heap) (h3 : w.native_db.is_finalized = false) :
    finalizeDB fuel w = none := by
  have hx : (reenteredWorld.heap[0]?).map (fun it => it.is_finalized) = some true := by decide
  cases h : reenteredWorld.heap[0]? with
  | none => rw [h] at hx; cases hx
  | some it =>
    rw [h] at hx
    simp only [finalizeDB, h3, Bool.false_eq_true, if_false]
    have hn := finalizeLoop_stuck 0 [] it fuel
      { w with native_db := { w.native_db with is_finalized := true, path := none }
               trace := w.trace ++ [.delete_path] } h1 (by rw [h2]; exact h) (by simpa using hx)
    rw [hn]

/-- C6 at the failing input: on `reenteredWorld` (a database opened by the worker, an iterator
advanced past its end) a close is requested.  The worker takes the close command from the
queue and enters `finalizeDB`, which never returns, so with any fuel the worker neither posts
the reply `0` nor exits. -/
theorem close_reply_never_posted :
    (dbClose reenteredWorld 2).native_db.messages = [{ port_id := 2, cmd := MESSAGE_CLOSE }] ∧
      (dbClose reenteredWorld 2).trace = reenteredWorld.trace ∧
      ∀ fuel, processMessages exampleEngine fuel (dbClose reenteredWorld 2) = none := by
  refine ⟨by decide, by decide, ?_⟩
  intro fuel
  cases fuel with
  | zero => rfl
  | succ fuel =>
    have hq : (dbClose reenteredWorld 2).native_db.messages =
        [{ port_id := 2, cmd := MESSAGE_CLOSE }] := by decide
    simp only [processMessages, hq, if_true]
    rw [finalizeDB_stuck fuel _ (by decide) (by decide) (by decide)]

/-- C7 at the failing input: a database is opened by the worker, an iterator is made and
advanced four times (two pairs, the end, and one more call that again returns end).  The last
call has created a second cursor and put the finalized iterator back on the live-iterator
list.  On that state `finalizeDB` does not return, whatever the fuel: each round of its loop
calls `iteratorFinalize` on the front of the list, which returns at once because the iterator
is already finalized, and the list never shrinks. -/
theorem cascade_teardown_never_returns :
    processMessages exampleEngine 2 (dbOpen 1 "db" 4096 true false) =
        some (.waiting openedWorld) ∧
      (syncNextN (syncNew openedWorld exampleBounds).2 0 4).1 =
        [.ok (some [1, 0, 4, 0, 99, 0, 0, 0, 3]), .ok (some [1, 0, 4, 0, 100, 0, 0, 0, 4]),
          .ok none, .ok none] ∧
      reenteredWorld.native_db.is_finalized = false ∧
      reenteredWorld.native_db.iterators = [0] ∧
      ∀ fuel, finalizeDB fuel reenteredWorld = none :=
  ⟨by decide, by decide, by decide, by decide,
    fun fuel => finalizeDB_stuck fuel reenteredWorld (by decide) rfl (by decide)⟩

/-- C8 (idempotent finalize).  `iteratorFinalize` applied twice leaves the state that one
application leaves.  Whenever `finalizeDB` has returned a state, a second `finalizeDB` on that
state returns it unchanged with any fuel: nothing is released (the trace is the same) and
nothing is removed from the live-iterator list.  On a well-formed live-iterator list the first
`finalizeDB` does return, with fuel for one round per member. -/
theorem idempotent_finalize (w : World) (i : Nat) (fuel fuel2 : Nat) :
    iteratorFinalize (iteratorFinalize w i) i = iteratorFinalize w i ∧
      (∀ w', finalizeDB fuel w = some w' → finalizeDB fuel2 w' = some w') ∧
      (liveSetOK w = true → w.native_db.iterators.length ≤ fuel →
        ∃ w', finalizeDB fuel w = some w' ∧ finalizeDB fuel2 w' = some w') := by
  have h2 : ∀ w', finalizeDB fuel w = some w' → finalizeDB fuel2 w' = some w' :=
    fun w' h => finalizeDB_of_finalized fuel2 w' (finalizeDB_is_finalized fuel w w' h)
  refine ⟨iteratorFinalize_idem w i, h2, ?_⟩
  intro hok hfuel
  cases hfin : w.native_db.is_finalized with
  | true =>
    exact ⟨w, finalizeDB_of_finalized fuel w hfin, finalizeDB_of_finalized fuel2 w hfin⟩
  | false =>
    obtain ⟨w', f1, _⟩ := finalizeDB_of_liveSetOK fuel w hfin hok hfuel
    exact ⟨w', f1, h2 w' f1⟩

/-- C8 on the example database after one emitted pair: the first `finalizeDB` returns, and a
second one without any fuel returns the same state. -/
theorem idempotent_finalize_witness :
    ∃ w', finalizeDB 1 (syncNext (syncNew exampleWorld exampleBounds).2 0).2 = some w' ∧
      finalizeDB 0 w' = some w' :=
  (idempotent_finalize (syncNext (syncNew exampleWorld exampleBounds).2 0).2 0 1 0).2.2
    (by decide) (by decide)

/-- C9 at the failing input: after the call of `syncNext` that follows the end of the scan,
the iterator is finalized and yet a member of the live-iterator list, and the engine's
`NewIterator` has been called twice for it. -/
theorem finalized_iterator_reenters_live_set :
    (reenteredWorld.heap[0]?).map (fun it => it.is_finalized) = some true ∧
      0 ∈ reenteredWorld.native_db.iterators ∧
      (reenteredWorld.trace.filter (fun e => e == Event.NewIterator 0 true)).length = 2 ∧
      liveSetOK reenteredWorld = false := by
  decide

/-! ## After the end -/

theorem iteratorFinalize_finalizes (w : World) (i : Nat) (it : NativeIterator)
    (h : w.heap[i]? = some it) :
    ∃ it', (iteratorFinalize w i).heap[i]? = some it' ∧ it'.is_finalized = true := by
  cases hf : it.is_finalized with
  | true => exact ⟨it, by rw [iteratorFinalize_of_finalized w i it h hf]; exact h, hf⟩
  | false =>
    cases hit : it.iterator with
    | none =>
      refine ⟨{ it with is_finalized := true }, ?_, rfl⟩
      simp only [iteratorFinalize, h, hf, hit]
      exact getElem?_set_same h
    | some c =>
      refine ⟨{ it with is_finalized := true, iterator := none }, ?_, rfl⟩
      simp only [iteratorFinalize, h, hf, hit]
      exact getElem?_set_same h

theorem syncNextEmit_none (w : World) (i : Nat) (ni : NativeIterator) (w' : World)
    (h : w.heap[i]? = some ni) (hend : syncNextEmit w i ni = (.ok none, w')) :
    ∃ it', w'.heap[i]? = some it' ∧ it'.is_finalized = true := by
  have hfinal := iteratorFinalize_finalizes w i ni h
  cases hf : ni.is_finalized with
  | true =>
    simp only [syncNextEmit, hf, if_true, Prod.mk.injEq, true_and] at hend
    rw [← hend]; exact hfinal
  | false =>
    cases hit : ni.iterator with
    | none => simp [syncNextEmit, hf, hit] at hend
    | some it =>
      cases hcur : it.current with
      | none =>
        simp only [syncNextEmit, hf, hit, hcur, Bool.false_eq_true, if_false, Prod.mk.injEq,
          true_and] at hend
        rw [← hend]; exact hfinal
      | some e =>
        obtain ⟨key, value⟩ := e
        by_cases hstop : (isQueryLimitReached ni key ||
            (decide (ni.limit ≥ 0) && decide (ni.count ≥ ni.limit))) = true
        · simp only [syncNextEmit, hf, hit, hcur, Bool.false_eq_true, if_false, hstop, if_true,
            Prod.mk.injEq, true_and] at hend
          rw [← hend]; exact hfinal
        · simp only [syncNextEmit, hf, hit, hcur, Bool.false_eq_true, if_false, hstop,
            Prod.mk.injEq] at hend
          simp at hend

/-- A call of `syncNext` that returns end leaves the iterator finalized. -/
theorem syncNext_none (w : World) (i : Nat) (w' : World)
    (hend : syncNext w i = (.ok none, w')) :
    ∃ it', w'.heap[i]? = some it' ∧ it'.is_finalized = true := by
  cases h : w.heap[i]? with
  | none => simp [syncNext, h] at hend
  | some ni =>
    cases hc : w.native_db.is_closed with
    | true => simp [syncNext, h, hc, throwClosedException] at hend
    | false =>
      by_cases hcreate : (!w.native_db.is_finalized && ni.iterator.isNone) = true
      · cases hdb : w.native_db.db with
        | none => simp [syncNext, h, hc, hcreate, createCursor, hdb] at hend
        | some store =>
          simp only [syncNext, h, hc, hcreate, createCursor, hdb] at hend
          simp only [Bool.false_eq_true, if_false, if_true] at hend
          exact syncNextEmit_none _ i _ w' (getElem?_set_same h) hend
      · simp only [syncNext, h, hc, hcreate] at hend
        simp only [Bool.false_eq_true, if_false] at hend
        exact syncNextEmit_none w i ni w' h hend

/-- C10 (end is sticky).  Take a database that is not closed and whose engine handle is valid
(or that is finalized), and an iterator of it that is finalized.  Then every later call of
`syncNext` on the iterator returns end without raising, so no pair is emitted, and the iterator
stays finalized with its emitted count unchanged.  An iterator is in that state after a call
of `syncNext` that returned end, and after `iteratorFinalize`. -/
theorem end_is_sticky (w : World) (i : Nat) (ni : NativeIterator) (n : Nat)
    (h : w.heap[i]? = some ni) (hf : ni.is_finalized = true)
    (hc : w.native_db.is_closed = false)
    (hdb : w.native_db.db.isSome = true ∨ w.native_db.is_finalized = true) :
    (syncNextN w i n).1 = List.replicate n (.ok none) ∧
      (∃ ni', (syncNextN w i n).2.heap[i]? = some ni' ∧ ni'.is_finalized = true ∧
        ni'.count = ni.count) ∧
      (∀ u u' : World, syncNext u i = (.ok none, u') →
        ∃ it', u'.heap[i]? = some it' ∧ it'.is_finalized = true) ∧
      (∀ (u : World) (it : NativeIterator), u.heap[i]? = some it →
        ∃ it', (iteratorFinalize u i).heap[i]? = some it' ∧ it'.is_finalized = true) :=
  ⟨(syncNextN_of_finalized i n w ni h hf hc hdb).1, (syncNextN_of_finalized i n w ni h hf hc hdb).2,
    fun u u' hu => syncNext_none u i u' hu, fun u it hu => iteratorFinalize_finalizes u i it hu⟩

/-- C10 on the example database: after the scan with `exampleBounds` has ended with its third
call, three more calls return end. -/
theorem end_is_sticky_witness :
    (syncNextN (syncNextN (syncNew exampleWorld exampleBounds).2 0 3).2 0 3).1 =
      [.ok none, .ok none, .ok none] :=
  (end_is_sticky (syncNextN (syncNew exampleWorld exampleBounds).2 0 3).2 0
    ((syncNextN (syncNew exampleWorld exampleBounds).2 0 3).2.heap.get ⟨0, by decide⟩) 3
    (by decide) (by decide) (by decide) (Or.inl (by decide))).1

/-! ## Upper bound -/

/-- A key that passes the upper-bound test of `syncNext` against a bound of non-zero length
honours that bound. -/
theorem honoursUpper_of_test (ni : NativeIterator) (u key : Bytes) (hlt : ni.lt = some u)
    (hlen : ni.lt_len = (u.length : Int)) (hu : u ≠ [])
    (htest : isQueryLimitReached ni key = false) : honoursUpper u ni.is_lt_closed key := by
  have hpos : (0 : Int) < u.length := length_pos_of_boundOK (b := u) hu
  simp only [isQueryLimitReached, hlt, hlen, hpos, if_true, mkSlice_some_length,
    Bool.or_eq_false_iff, Bool.and_eq_false_imp, beq_iff_eq, Bool.not_eq_false',
    decide_eq_false_iff_not] at htest
  refine ⟨htest.2, fun hcl hk => ?_⟩
  have h0 : Slice.compare key u = 0 := by rw [hk]; exact Slice.compare_self u
  have := htest.1 h0
  rw [hcl] at this
  cases this

/-- An emitting call of the second part of `syncNext` has found the upper-bound test negative
on the key it emits. -/
theorem syncNextEmit_some_test (w : World) (i : Nat) (ni : NativeIterator) (buf : Bytes)
    (w' : World) (hemit : syncNextEmit w i ni = (.ok (some buf), w')) :
    ∃ (c : Cursor) (key value : Bytes), ni.iterator = some c ∧ c.current = some (key, value) ∧
      buf = encodePair key value ∧ isQueryLimitReached ni key = false := by
  cases hf : ni.is_finalized with
  | true => simp [syncNextEmit, hf] at hemit
  | false =>
    cases hit : ni.iterator with
    | none => simp [syncNextEmit, hf, hit] at hemit
    | some it =>
      cases hcur : it.current with
      | none => simp [syncNextEmit, hf, hit, hcur] at hemit
      | some e =>
        obtain ⟨key, value⟩ := e
        by_cases hstop : (isQueryLimitReached ni key ||
            (decide (ni.limit ≥ 0) && decide (ni.count ≥ ni.limit))) = true
        · have hstop' := hstop
          simp only [Bool.or_eq_true, Bool.and_eq_true, decide_eq_true_eq] at hstop'
          simp [syncNextEmit, hf, hit, hcur, hstop'] at hemit
        · have hq : isQueryLimitReached ni key = false := by
            cases hq : isQueryLimitReached ni key with
            | false => rfl
            | true => simp [hq] at hstop
          have hstop' := hstop
          simp only [Bool.or_eq_true, Bool.and_eq_true, decide_eq_true_eq] at hstop'
          simp only [syncNextEmit, hf, hit, hcur] at hemit
          simp [hstop'] at hemit
          exact ⟨it, key, value, rfl, hcur, hemit.1.symm, hq⟩

/-- Every pair returned by `syncNext` has passed the upper-bound test of the iterator. -/
theorem syncNext_some_test (w : World) (i : Nat) (ni : NativeIterator) (buf : Bytes)
    (w' : World) (h : w.heap[i]? = some ni) (hemit : syncNext w i = (.ok (some buf), w')) :
    ∃ (key value : Bytes), buf = encodePair key value ∧ isQueryLimitReached ni key = false := by
  cases hc : w.native_db.is_closed with
  | true => simp [syncNext, h, hc, throwClosedException] at hemit
  | false =>
    by_cases hcreate : (!w.native_db.is_finalized && ni.iterator.isNone) = true
    · cases hdb : w.native_db.db with
      | none => simp [syncNext, h, hc, hcreate, createCursor, hdb] at hemit
      | some store =>
        simp only [syncNext, h, hc, hcreate, createCursor, hdb] at hemit
        simp only [Bool.false_eq_true, if_false, if_true] at hemit
        obtain ⟨_, key, value, _, _, h3, h4⟩ := syncNextEmit_some_test _ i _ buf w' hemit
        exact ⟨key, value, h3, h4⟩
    · simp only [syncNext, h, hc, hcreate] at hemit
      simp only [Bool.false_eq_true, if_false] at hemit
      obtain ⟨_, key, value, _, _, h3, h4⟩ := syncNextEmit_some_test w i ni buf w' hemit
      exact ⟨key, value, h3, h4⟩

/-- The entries a scan is specified to visit honour an upper bound of non-zero length. -/
theorem honoursUpper_of_mem_matching (a : IteratorArgs) (es : Store) (u : Bytes)
    (hlt : a.lt = some u) (hu : u ≠ []) (e : Entry)
    (he : e ∈ limited a.limit (matching (effectiveArgs a) es)) :
    e ∈ es ∧ honoursUpper u a.is_lt_closed e.1 := by
  have hm : e ∈ matching (effectiveArgs a) es := by
    unfold limited at he
    split at he
    · exact he
    · exact List.mem_of_mem_take he
  have hf := List.mem_filter.1 hm
  refine ⟨hf.1, ?_⟩
  have hup : upperOK (effectiveArgs a) e.1 = true := by
    have := hf.2
    simp only [Bool.and_eq_true] at this
    exact this.2
  have heff : (effectiveArgs a).lt = some u := by
    simp only [effectiveArgs, hlt]
    exact effectiveBound_of_boundOK (b := some u) hu
  have hcl : (effectiveArgs a).is_lt_closed = a.is_lt_closed := rfl
  simp only [upperOK, heff, hcl, Bool.or_eq_true, decide_eq_true_eq, Bool.and_eq_true] at hup
  have h0 := Slice.compare_eq_zero_iff e.1 u
  rcases hup with h1 | ⟨h1, h2⟩
  · refine ⟨by omega, fun _ hk => ?_⟩
    have := h0.2 hk
    omega
  · refine ⟨by have := h0.2 h1; omega, fun hcl' => ?_⟩
    rw [hcl'] at h2
    cases h2

/-- An upper bound of zero length is treated like an absent one. -/
theorem effectiveArgs_empty_upper (a : IteratorArgs) (hlt : a.lt = some []) :
    effectiveArgs a = effectiveArgs { a with lt := none } := by
  simp [effectiveArgs, hlt, effectiveBound]

/-- C11 as stated fails for an upper bound of zero length: on the store with the keys `a` to
`e`, an iterator with the exclusive upper bound `""` emits the pair of `a` at its first call,
and `a` is greater than the bound. -/
theorem empty_upper_bound_not_honoured :
    exampleEmptyUpper.lt = some [] ∧
      (syncNext (syncNew exampleWorld exampleEmptyUpper).2 0).1 =
        .ok (some (encodePair [97] [1])) ∧
      ¬ honoursUpper [] exampleEmptyUpper.is_lt_closed [97] := by
  refine ⟨rfl, by decide, ?_⟩
  intro h
  exact h.1 (by decide)

/-- C11 (upper bound honoured, amended).  Take an iterator made by `syncNew` with an upper
bound `u` that is set, on an open database with ordered content.  The `n` first calls of
`syncNext` return the encoded entries of a list of stored entries and then end; when `u` has
non-zero length every entry of that list honours the bound: its key is not greater than `u`,
and when the bound is exclusive its key is not `u`.  When `u` has zero length the calls return
what they return for an absent upper bound.  Call by call and in any state: a pair returned by
`syncNext` for an iterator whose upper bound `u` has non-zero length is the encoding of an
entry whose key honours the bound. -/
theorem upper_bound_honoured (w : World) (a : IteratorArgs) (es : Store) (n : Nat) (u : Bytes)
    (hdb : w.native_db.db = some es) (hc : w.native_db.is_closed = false)
    (hfin : w.native_db.is_finalized = false) (hs : Store.Ordered es) (hlt : a.lt = some u) :
    (syncNextN (syncNew w a).2 w.heap.length n).1 =
        expectedResults (limited a.limit (matching (effectiveArgs a) es)) n ∧
      (u ≠ [] → ∀ e ∈ limited a.limit (matching (effectiveArgs a) es),
        e ∈ es ∧ honoursUpper u a.is_lt_closed e.1) ∧
      (u = [] → (syncNextN (syncNew w a).2 w.heap.length n).1 =
        (syncNextN (syncNew w { a with lt := none }).2 w.heap.length n).1) ∧
      (∀ (v : World) (i : Nat) (ni : NativeIterator) (buf : Bytes) (v' : World),
        v.heap[i]? = some ni → ni.lt = some u → ni.lt_len = (u.length : Int) → u ≠ [] →
        syncNext v i = (.ok (some buf), v') →
        ∃ (key value : Bytes), buf = encodePair key value ∧
          honoursUpper u ni.is_lt_closed key) ∧
      ((newNativeIterator a).lt = some u ∧ (newNativeIterator a).lt_len = (u.length : Int) ∧
        (newNativeIterator a).is_lt_closed = a.is_lt_closed) := by
  have hmain := (scan_any w a es n hdb hc hfin hs).1
  refine ⟨hmain, ?_, ?_, ?_, ?_⟩
  · intro hu e he
    exact honoursUpper_of_mem_matching a es u hlt hu e he
  · intro hu
    rw [hmain, (scan_any w { a with lt := none } es n hdb hc hfin hs).1,
      effectiveArgs_empty_upper a (by rw [hlt, hu])]
  · intro v i ni buf v' h h1 h2 hu hemit
    obtain ⟨key, value, e1, e2⟩ := syncNext_some_test v i ni buf v' h hemit
    exact ⟨key, value, e1, honoursUpper_of_test ni u key h1 h2 hu e2⟩
  · simp [newNativeIterator, hlt]

/-- C11 at the bound example (upper bound `d`, inclusive): the three first calls return the
pairs of `c` and `d` and then end, and both keys honour the bound. -/
theorem upper_bound_honoured_witness :
    (syncNextN (syncNew exampleWorld exampleBounds).2 0 3).1 =
        [.ok (some [1, 0, 4, 0, 99, 0, 0, 0, 3]), .ok (some [1, 0, 4, 0, 100, 0, 0, 0, 4]),
          .ok none] ∧
      honoursUpper [100] true [99] ∧ honoursUpper [100] true [100] :=
  ⟨(upper_bound_honoured exampleWorld exampleBounds exampleStore 3 [100] rfl rfl rfl
      (by unfold Store.Ordered; decide) rfl).1.trans (by decide),
    ((upper_bound_honoured exampleWorld exampleBounds exampleStore 3 [100] rfl rfl rfl
      (by unfold Store.Ordered; decide) rfl).2.1 (List.cons_ne_nil _ _) ([99], [3])
      (by decide)).2,
    ((upper_bound_honoured exampleWorld exampleBounds exampleStore 3 [100] rfl rfl rfl
      (by unfold Store.Ordered; decide) rfl).2.1 (List.cons_ne_nil _ _) ([100], [4])
      (by decide)).2⟩

/-! ## Exact states of a scan -/

theorem set_getElem?_self {α : Type} : ∀ (l : List α) (i : Nat) (a : α), l[i]? = some a →
    l.set i a = l
  | [], _, _, h => by simp at h
  | x :: l, 0, a, h => by
    simp only [List.getElem?_cons_zero, Option.some.injEq] at h
    simp [h]
  | x :: l, i + 1, a, h => by
    simp only [List.getElem?_cons_succ] at h
    simp [set_getElem?_self l i a h]

/-- The state `iteratorFinalize` leaves for an iterator that is not finalized and has its
cursor: the iterator is off the live-iterator list, marked finalized, its cursor and bound
buffers released. -/
theorem iteratorFinalize_cursor_eq (w : World) (i : Nat) (ni : NativeIterator) (c : Cursor)
    (h : w.heap[i]? = some ni) (hf : ni.is_finalized = false) (hit : ni.iterator = some c) :
    iteratorFinalize w i =
      { native_db := { w.native_db with
          iterators := w.native_db.iterators.filter (fun j => j != i) }
        heap := w.heap.set i { ni with is_finalized := true, iterator := none }
        trace := w.trace ++ [.delete_cursor i, .delete_bounds i] } := by
  simp [iteratorFinalize, h, hf, hit]

/-- The state after the call that ends a scan (the call after the last emitted pair): the
iterator has counted the emitted pairs and has been finalized by `iteratorFinalize`; nothing
else has changed since the scan started. -/
theorem syncNextN_running_end (i : Nat) : ∀ (rest : Store) (w : World)
    (ni : NativeIterator) (c : Cursor),
    w.heap[i]? = some ni → ni.is_finalized = false → ni.iterator = some c → c.rest = rest →
    w.native_db.is_closed = false →
    (syncNextN w i ((scanOut ni rest ni.count).length + 1)).2 =
      { native_db := { w.native_db with
          iterators := w.native_db.iterators.filter (fun j => j != i) }
        heap := w.heap.set i { ni with
          is_finalized := true, iterator := none,
          count := ni.count + (scanOut ni rest ni.count).length }
        trace := w.trace ++ [.delete_cursor i, .delete_bounds i] } := by
  intro rest
  induction rest with
  | nil =>
    intro w ni c h hf hit hrest hc
    have hstep : syncNext w i = (.ok none, iteratorFinalize w i) := by
      simp [syncNext, syncNextEmit, h, hc, hit, hf, Cursor.current, hrest]
    simp only [scanOut, List.length_nil, syncNextN, hstep,
      iteratorFinalize_cursor_eq w i ni c h hf hit]
    simp
  | cons e r ih =>
    intro w ni c h hf hit hrest hc
    obtain ⟨key, value⟩ := e
    by_cases hstop : (isQueryLimitReached ni key ||
        (decide (ni.limit ≥ 0) && decide (ni.count ≥ ni.limit))) = true
    · have hstep : syncNext w i = (.ok none, iteratorFinalize w i) := by
        have hstop' := hstop
        simp only [Bool.or_eq_true, Bool.and_eq_true, decide_eq_true_eq] at hstop'
        simp [syncNext, syncNextEmit, h, hc, hit, hf, Cursor.current, hrest, hstop']
      have hso : scanOut ni ((key, value) :: r) ni.count = [] := by
        simp only [scanOut]
        rw [if_pos hstop]
      rw [hso]
      simp only [List.length_nil, syncNextN, hstep,
        iteratorFinalize_cursor_eq w i ni c h hf hit]
      simp
    · let ni1 : NativeIterator := { ni with count := ni.count + 1, iterator := some c.Next }
      let w1 : World := { w with heap := w.heap.set i ni1 }
      have hstep : syncNext w i = (.ok (some (encodePair key value)), w1) := by
        have hstop' := hstop
        simp only [Bool.or_eq_true, Bool.and_eq_true, decide_eq_true_eq] at hstop'
        simp [syncNext, syncNextEmit, h, hc, hit, hf, Cursor.current, hrest, hstop', w1, ni1]
      have hcong : scanOut ni1 r (ni.count + 1) = scanOut ni r (ni.count + 1) :=
        scanOut_congr ni ni1 rfl rfl rfl rfl r (ni.count + 1)
      have hso : scanOut ni ((key, value) :: r) ni.count =
          (key, value) :: scanOut ni r (ni.count + 1) := by
        simp only [scanOut]
        rw [if_neg hstop]
      have hih := ih w1 ni1 c.Next (getElem?_set_same h) hf rfl
        (by simp [Cursor.Next, hrest]) hc
      have hcnt1 : ni1.count = ni.count + 1 := rfl
      rw [hcnt1, hcong] at hih
      rw [hso]
      simp only [List.length_cons]
      rw [syncNextN]
      simp only [hstep]
      rw [hih]
      simp only [w1, ni1, List.set_set]
      congr 2
      congr 1
      push_cast
      omega

/-- The first call on an iterator without a cursor behaves as the call on the state in which
the cursor has been created, registered on the live-iterator list and positioned. -/
theorem syncNext_fresh_eq (w : World) (i : Nat) (ni : NativeIterator) (es : Store)
    (h : w.heap[i]? = some ni) (hit : ni.iterator = none)
    (hc : w.native_db.is_closed = false) (hfin : w.native_db.is_finalized = false)
    (hdb : w.native_db.db = some es) :
    syncNext w i = syncNext
      { native_db := { w.native_db with iterators := w.native_db.iterators ++ [i] }
        heap := w.heap.set i { ni with iterator := some (initialSeek ni (DB.NewIterator es)) }
        trace := w.trace ++ [.NewIterator i ni.is_fill_cache] } i := by
  let ni1 : NativeIterator := { ni with iterator := some (initialSeek ni (DB.NewIterator es)) }
  let w1 : World :=
    { native_db := { w.native_db with iterators := w.native_db.iterators ++ [i] }
      heap := w.heap.set i ni1
      trace := w.trace ++ [.NewIterator i ni.is_fill_cache] }
  have hcc : createCursor w i ni = some (w1, ni1) := by
    simp [createCursor, hdb, w1, ni1]
  have h1 : w1.heap[i]? = some ni1 := getElem?_set_same h
  have hc1 : w1.native_db.is_closed = false := hc
  have hl : syncNext w i = syncNextEmit w1 i ni1 := by
    simp [syncNext, h, hc, hfin, hit, hcc]
  have hr : syncNext w1 i = syncNextEmit w1 i ni1 := by
    simp [syncNext, h1, hc1, hc, ni1]
  rw [hl, ← hr]

theorem set_append_length {α : Type} : ∀ (l : List α) (a b : α),
    (l ++ [a]).set l.length b = l ++ [b]
  | [], _, _ => rfl
  | x :: l, a, b => by
    simp only [List.cons_append, List.length_cons, List.set_cons_succ, set_append_length l a b]

/-- The state after the call that ends the scan of a new iterator: against the state before
`syncNew`, the heap has gained the iterator, finalized, without cursor and with the number of
emitted pairs as its count; the live-iterator list does not hold it; and the trace has gained
the creation of its cursor and the release of the cursor and of the bound buffers. -/
theorem scan_any_end (w : World) (a : IteratorArgs) (es : Store)
    (hdb : w.native_db.db = some es) (hc : w.native_db.is_closed = false)
    (hfin : w.native_db.is_finalized = false) (hs : Store.Ordered es) :
    (syncNextN (syncNew w a).2 w.heap.length
        ((limited a.limit (matching (effectiveArgs a) es)).length + 1)).2 =
      { native_db := { w.native_db with
          iterators := w.native_db.iterators.filter (fun j => j != w.heap.length) }
        heap := w.heap ++ [{ newNativeIterator a with
          is_finalized := true, iterator := none,
          count := (limited a.limit (matching (effectiveArgs a) es)).length }]
        trace := w.trace ++ [.NewIterator w.heap.length a.fillCache,
          .delete_cursor w.heap.length, .delete_bounds w.heap.length] } := by
  have hnew : syncNew w a = (.ok (), { w with heap := w.heap ++ [newNativeIterator a] }) := by
    simp [syncNew, hc]
  rw [hnew]
  simp only
  generalize hw0 : ({ w with heap := w.heap ++ [newNativeIterator a] } : World) = w0
  have h0 : w0.heap[w.heap.length]? = some (newNativeIterator a) := by
    rw [← hw0]; simp
  have hc0 : w0.native_db.is_closed = false := by rw [← hw0]; exact hc
  have hfin0 : w0.native_db.is_finalized = false := by rw [← hw0]; exact hfin
  have hdb0 : w0.native_db.db = some es := by rw [← hw0]; exact hdb
  have e1 := syncNext_fresh_eq w0 w.heap.length (newNativeIterator a) es h0 rfl hc0 hfin0 hdb0
  obtain ⟨ni1, hni1⟩ : ∃ ni1 : NativeIterator, ni1 = { newNativeIterator a with
      iterator := some (initialSeek (newNativeIterator a) (DB.NewIterator es)) } := ⟨_, rfl⟩
  obtain ⟨w1, hw1⟩ : ∃ w1 : World, w1 =
      { native_db := { w0.native_db with iterators := w0.native_db.iterators ++ [w.heap.length] }
        heap := w0.heap.set w.heap.length ni1
        trace := w0.trace ++ [.NewIterator w.heap.length (newNativeIterator a).is_fill_cache] } :=
    ⟨_, rfl⟩
  rw [← hni1, ← hw1] at e1
  have h1 : w1.heap[w.heap.length]? = some ni1 := by
    rw [hw1]; exact getElem?_set_same h0
  have hc1 : w1.native_db.is_closed = false := by rw [hw1]; exact hc0
  have p1 : ni1.is_finalized = false := by rw [hni1]; rfl
  have p2 : ni1.iterator = some (initialSeek (newNativeIterator a) (DB.NewIterator es)) := by
    rw [hni1]
  have p3 : ni1.count = 0 := by rw [hni1]; rfl
  have p4 : ni1.lt = a.lt := by rw [hni1]; rfl
  have p5 : ni1.lt_len = (newNativeIterator a).lt_len := by rw [hni1]
  have p6 : ni1.is_lt_closed = a.is_lt_closed := by rw [hni1]; rfl
  have p7 : ni1.limit = a.limit := by rw [hni1]; rfl
  have hN : ∀ k, syncNextN w0 w.heap.length (k + 1) = syncNextN w1 w.heap.length (k + 1) := by
    intro k
    simp only [syncNextN, e1]
  rw [hN]
  have hend := syncNextN_running_end w.heap.length
    (es.filter (fun e => lowerOK (effectiveArgs a) e.1)) w1 ni1 _ h1 p1 p2
    (by rw [initialSeek_any a es hs]) hc1
  rw [p3, scanOut_any a es hs ni1 p4 p5 p6 p7] at hend
  rw [hend, hw1, ← hw0, hni1]
  simp only [List.set_set, set_append_length, List.filter_append, zero_add]
  simp [newNativeIterator]

/-! ## The emitted pair -/

/-- An emitting call of the second part of `syncNext`, exactly: the buffer is the encoding of
the entry under the cursor of the iterator, and the state changes only in that the iterator
counts one more pair and its cursor has moved on. -/
theorem syncNextEmit_some_eq (w : World) (i : Nat) (ni : NativeIterator) (buf : Bytes)
    (w' : World) (hemit : syncNextEmit w i ni = (.ok (some buf), w')) :
    ∃ (c : Cursor) (key value : Bytes), ni.iterator = some c ∧ c.current = some (key, value) ∧
      buf = encodePair key value ∧
      w' = { w with
        heap := w.heap.set i { ni with count := ni.count + 1, iterator := some c.Next } } := by
  cases hf : ni.is_finalized with
  | true => simp [syncNextEmit, hf] at hemit
  | false =>
    cases hit : ni.iterator with
    | none => simp [syncNextEmit, hf, hit] at hemit
    | some it =>
      cases hcur : it.current with
      | none => simp [syncNextEmit, hf, hit, hcur] at hemit
      | some e =>
        obtain ⟨key, value⟩ := e
        by_cases hstop : (isQueryLimitReached ni key ||
            (decide (ni.limit ≥ 0) && decide (ni.count ≥ ni.limit))) = true
        · have hstop' := hstop
          simp only [Bool.or_eq_true, Bool.and_eq_true, decide_eq_true_eq] at hstop'
          simp [syncNextEmit, hf, hit, hcur, hstop'] at hemit
        · have hstop' := hstop
          simp only [Bool.or_eq_true, Bool.and_eq_true, decide_eq_true_eq] at hstop'
          simp only [syncNextEmit, hf, hit, hcur] at hemit
          simp [hstop'] at hemit
          exact ⟨it, key, value, rfl, hcur, hemit.1.symm, hemit.2.symm⟩

/-- An emitting call of `syncNext`, exactly.  The cursor it reads is the cursor of the
iterator, or, when the iterator has none, the cursor the call creates on the engine content
and positions by the initial seek.  The buffer is the encoding of the entry under that cursor,
and afterwards the iterator counts one more pair and holds the cursor moved on by one. -/
theorem syncNext_some_eq (w : World) (i : Nat) (buf : Bytes) (w' : World)
    (hemit : syncNext w i = (.ok (some buf), w')) :
    ∃ (ni : NativeIterator) (c : Cursor) (key value : Bytes), w.heap[i]? = some ni ∧
      (ni.iterator = some c ∨ (ni.iterator = none ∧ ∃ store, w.native_db.db = some store ∧
        c = initialSeek ni (DB.NewIterator store))) ∧
      c.current = some (key, value) ∧ buf = encodePair key value ∧
      w'.heap[i]? = some { ni with count := ni.count + 1, iterator := some c.Next } := by
  cases h : w.heap[i]? with
  | none => simp [syncNext, h] at hemit
  | some ni =>
    cases hc : w.native_db.is_closed with
    | true => simp [syncNext, h, hc, throwClosedException] at hemit
    | false =>
      by_cases hcreate : (!w.native_db.is_finalized && ni.iterator.isNone) = true
      · have hnone : ni.iterator = none := by
          simp only [Bool.and_eq_true] at hcreate
          exact Option.isNone_iff_eq_none.1 hcreate.2
        cases hdb : w.native_db.db with
        | none => simp [syncNext, h, hc, hcreate, createCursor, hdb] at hemit
        | some store =>
          simp only [syncNext, h, hc, hcreate, createCursor, hdb] at hemit
          simp only [Bool.false_eq_true, if_false, if_true] at hemit
          obtain ⟨c, key, value, e1, e2, e3, e4⟩ := syncNextEmit_some_eq _ i _ buf w' hemit
          simp only [Option.some.injEq] at e1
          refine ⟨ni, c, key, value, rfl, Or.inr ⟨hnone, store, rfl, e1.symm⟩, e2, e3, ?_⟩
          rw [e4]
          simp only [List.set_set]
          exact getElem?_set_same h
      · simp only [syncNext, h, hc, hcreate] at hemit
        simp only [Bool.false_eq_true, if_false] at hemit
        obtain ⟨c, key, value, e1, e2, e3, e4⟩ := syncNextEmit_some_eq w i ni buf w' hemit
        refine ⟨ni, c, key, value, rfl, Or.inl e1, e2, e3, ?_⟩
        rw [e4]
        exact getElem?_set_same h

/-! ## Limit enforcement and pair encoding -/

theorem mem_of_mem_limited_matching (a : IteratorArgs) (limit : Int) (es : Store) (e : Entry)
    (he : e ∈ limited limit (matching a es)) : e ∈ es := by
  have hm : e ∈ matching a es := by
    unfold limited at he
    split at he
    · exact he
    · exact List.mem_of_mem_take he
  exact (List.mem_filter.1 hm).1

/-- C2 as stated fails when a bound of zero length is given: with limit 2 and the exclusive
upper bound `""` over the keys `a` to `e`, no stored key satisfies the bounds as stated
(`m = 0`), yet the calls emit the pairs of `a` and `b` before they return end. -/
theorem limit_counts_unapplied_bound :
    exampleLimitEmptyUpper.limit = 2 ∧ exampleLimitEmptyUpper.lt = some [] ∧
      (matching exampleLimitEmptyUpper exampleStore).length = 0 ∧
      (syncNextN (syncNew exampleWorld exampleLimitEmptyUpper).2 0 3).1 =
        [.ok (some (encodePair [97] [1])), .ok (some (encodePair [98] [2])), .ok none] ∧
      (syncNextN (syncNew exampleWorld exampleLimitEmptyUpper).2 0 3).1 ≠
        expectedResults
          (limited exampleLimitEmptyUpper.limit (matching exampleLimitEmptyUpper exampleStore)) 3 := by
  decide

/-- C2 (limit enforcement, amended).  On an open database with ordered content, take an
iterator made by `syncNew` with any bounds and any limit, and let the matching entries be the
stored entries that satisfy the bounds the scan applies (`effectiveArgs`: each bound as given
when it is absent or non-empty, no bound in place of a bound of zero length).  Then `n`
successive calls of `syncNext` return the encoded entries of `limited a.limit` of the matching
entries in order and after them end on every call.  For a limit `0 ≤ a.limit` these are the
first `min a.limit m` of the `m` matching entries; for a negative limit they are all matching
entries.  After `n` calls the iterator has counted `min n len` pairs and is finalized exactly
when `n` exceeds the number `len` of emitted pairs.  The call after the last pair, which
returns end, finalizes the iterator: the state it leaves is the state before `syncNew` with the
iterator added to the heap, marked finalized, without cursor and with count `len`, with the
iterator off the live-iterator list, and with the creation of the cursor and the release of
the cursor and of the bound buffers added to the trace.  With limit 0 the first call returns
end.  Limit 2 over the five keys `a` to `e` emits the pairs of `a` and `b`. -/
theorem limit_enforcement (w : World) (a : IteratorArgs) (es : Store) (n : Nat)
    (hdb : w.native_db.db = some es) (hc : w.native_db.is_closed = false)
    (hfin : w.native_db.is_finalized = false) (hs : Store.Ordered es) :
    (syncNextN (syncNew w a).2 w.heap.length n).1 =
        expectedResults (limited a.limit (matching (effectiveArgs a) es)) n ∧
      (0 ≤ a.limit →
        limited a.limit (matching (effectiveArgs a) es) =
          (matching (effectiveArgs a) es).take a.limit.toNat ∧
        (limited a.limit (matching (effectiveArgs a) es)).length =
          min a.limit.toNat (matching (effectiveArgs a) es).length) ∧
      (a.limit < 0 →
        limited a.limit (matching (effectiveArgs a) es) = matching (effectiveArgs a) es) ∧
      (∃ ni', (syncNextN (syncNew w a).2 w.heap.length n).2.heap[w.heap.length]? = some ni' ∧
        ni'.is_finalized =
          decide ((limited a.limit (matching (effectiveArgs a) es)).length < n) ∧
        ni'.count = min n (limited a.limit (matching (effectiveArgs a) es)).length) ∧
      (syncNextN (syncNew w a).2 w.heap.length
          ((limited a.limit (matching (effectiveArgs a) es)).length + 1)).2 =
        { native_db := { w.native_db with
            iterators := w.native_db.iterators.filter (fun j => j != w.heap.length) }
          heap := w.heap ++ [{ newNativeIterator a with
            is_finalized := true, iterator := none,
            count := (limited a.limit (matching (effectiveArgs a) es)).length }]
          trace := w.trace ++ [.NewIterator w.heap.length a.fillCache,
            .delete_cursor w.heap.length, .delete_bounds w.heap.length] } ∧
      (a.limit = 0 → (syncNext (syncNew w a).2 w.heap.length).1 = .ok none) ∧
      (boundOK a.gt → boundOK a.lt → effectiveArgs a = a) ∧
      limited exampleLimit.limit (matching (effectiveArgs exampleLimit) exampleStore) =
        [([97], [1]), ([98], [2])] := by
  have hmain := scan_any w a es n hdb hc hfin hs
  refine ⟨hmain.1, ?_, ?_, hmain.2, scan_any_end w a es hdb hc hfin hs, ?_,
    effectiveArgs_of_boundOK a, by decide⟩
  · intro h0
    have hnot : ¬ a.limit < 0 := by omega
    simp [limited, hnot]
  · intro h0
    simp [limited, h0]
  · intro h0
    have h1 := (scan_any w a es 1 hdb hc hfin hs).1
    simp only [syncNextN, limited, h0] at h1
    simpa [expectedResults] using h1

/-- C2 at the limit example: four calls with limit 2 on the store with the keys `a` to `e`
return the pairs of `a` and `b` and then end. -/
theorem limit_enforcement_witness :
    (syncNextN (syncNew exampleWorld exampleLimit).2 0 4).1 =
      [.ok (some [1, 0, 4, 0, 97, 0, 0, 0, 1]), .ok (some [1, 0, 4, 0, 98, 0, 0, 0, 2]),
        .ok none, .ok none] :=
  (limit_enforcement exampleWorld exampleLimit exampleStore 4 rfl rfl rfl
    (by unfold Store.Ordered; decide)).1.trans (by decide)

/-- C3 (pair encoding, amended).  Let a call of `syncNext` on the iterator `i` return the
buffer `buf`.  The cursor the call reads is the cursor of the iterator or, when the iterator
has none, the cursor the call creates on the engine content and positions by the initial seek.
With `(key, value)` the entry under that cursor before the call, `buf` is
`encodePair key value`, and after the call the iterator counts one more pair and holds the
cursor moved on by one.  For a key of at most 65532 bytes `buf` has the stated layout: length
`4 + p + |value|` with `p` the key length rounded up to a multiple of 4, bytes 0..1 the key
length and bytes 2..3 `p` in little-endian, the key, zero padding up to `p`, the value.  For
any key below the 32-bit wrap the buffer is the same except that the header holds the low 16
bits of the key length and of `p`.  Over a whole scan of a new iterator the returned buffers
are, in order, the encodings of stored entries, each key with its own value.  Key `ab` with
value `xyz` encodes to `[2,0,4,0,'a','b',0,0,'x','y','z']`, of length 11. -/
theorem pair_encoding (w : World) (i : Nat) (buf : Bytes) (w' : World)
    (hemit : syncNext w i = (.ok (some buf), w')) :
    (∃ (ni : NativeIterator) (c : Cursor) (key value : Bytes), w.heap[i]? = some ni ∧
      (ni.iterator = some c ∨ (ni.iterator = none ∧ ∃ store, w.native_db.db = some store ∧
        c = initialSeek ni (DB.NewIterator store))) ∧
      c.current = some (key, value) ∧ buf = encodePair key value ∧
      w'.heap[i]? = some { ni with count := ni.count + 1, iterator := some c.Next } ∧
      (key.length ≤ 65532 → statedLayout key value buf) ∧
      (key.length + 3 < 2 ^ 32 → buf =
        [key.length % 256, key.length / 256 % 256,
          ((key.length + 3) / 4 * 4) % 256, ((key.length + 3) / 4 * 4) / 256 % 256] ++ key ++
        List.replicate ((key.length + 3) / 4 * 4 - key.length) 0 ++ value)) ∧
      (∀ (v : World) (a : IteratorArgs) (es : Store) (n : Nat), v.native_db.db = some es →
        v.native_db.is_closed = false → v.native_db.is_finalized = false → Store.Ordered es →
        (syncNextN (syncNew v a).2 v.heap.length n).1 =
          ((limited a.limit (matching (effectiveArgs a) es)).map
            (fun e : Entry => Except.ok (some (encodePair e.1 e.2))) ++
            List.replicate n (Except.ok none)).take n ∧
        ∀ e ∈ limited a.limit (matching (effectiveArgs a) es), e ∈ es ∧
          (e.1.length ≤ 65532 → statedLayout e.1 e.2 (encodePair e.1 e.2))) ∧
      encodePair [97, 98] [120, 121, 122] = [2, 0, 4, 0, 97, 98, 0, 0, 120, 121, 122] ∧
      (encodePair [97, 98] [120, 121, 122]).length = 11 := by
  obtain ⟨ni, c, key, value, h1, h2, h3, h4, h5⟩ := syncNext_some_eq w i buf w' hemit
  refine ⟨⟨ni, c, key, value, h1, h2, h3, h4, h5, ?_, ?_⟩, ?_, by decide, by decide⟩
  · intro hk
    rw [h4]
    exact encodePair_statedLayout key value hk
  · intro hk
    rw [h4]
    exact encodePair_eq key value hk
  · intro v a es n hdb hc hfin hs
    refine ⟨(scan_any v a es n hdb hc hfin hs).1, fun e he => ?_⟩
    exact ⟨mem_of_mem_limited_matching _ _ es e he,
      fun hk => encodePair_statedLayout e.1 e.2 hk⟩

/-- C3 at the first call of the bound example: the iterator has no cursor yet, the initial
seek for the exclusive lower bound `b` lands on `c`, and the call returns the encoding of the
stored pair of `c`. -/
theorem pair_encoding_witness :
    ∃ (ni : NativeIterator) (c : Cursor) (key value : Bytes),
      (syncNew exampleWorld exampleBounds).2.heap[0]? = some ni ∧
      (ni.iterator = some c ∨ (ni.iterator = none ∧
        ∃ store, (syncNew exampleWorld exampleBounds).2.native_db.db = some store ∧
          c = initialSeek ni (DB.NewIterator store))) ∧
      c.current = some (key, value) ∧ [1, 0, 4, 0, 99, 0, 0, 0, 3] = encodePair key value ∧
      (syncNext (syncNew exampleWorld exampleBounds).2 0).2.heap[0]? =
        some { ni with count := ni.count + 1, iterator := some c.Next } ∧
      (key.length ≤ 65532 → statedLayout key value [1, 0, 4, 0, 99, 0, 0, 0, 3]) ∧
      (key.length + 3 < 2 ^ 32 → [1, 0, 4, 0, 99, 0, 0, 0, 3] =
        [key.length % 256, key.length / 256 % 256,
          ((key.length + 3) / 4 * 4) % 256, ((key.length + 3) / 4 * 4) / 256 % 256] ++ key ++
        List.replicate ((key.length + 3) / 4 * 4 - key.length) 0 ++ value) :=
  (pair_encoding (syncNew exampleWorld exampleBounds).2 0 [1, 0, 4, 0, 99, 0, 0, 0, 3]
    (syncNext (syncNew exampleWorld exampleBounds).2 0).2 (by decide)).1

end DartLevelDB
